import Mathlib

/-!
# TWCC arrival recorder (`pkg/twcc/twcc_old.go`)

A shallow embedding of `recorderOld`: the sequence-number extension done by `Record`,
the tail-scanning `insertSorted`, and the report splitting loop of `BuildFeedbackPacket`.

Machine integers are natural numbers with explicit reduction where the source can
overflow (`uint32` for `cycles`, `uint8` for `fbPktCnt`).  Slice indexing and
re-slicing are checked operations returning `Option`; `none` stands for a Go run-time
panic (index or slice bound out of range).
-/

namespace twcc

/-! ## Data model -/

/-- One ledger entry: `sequenceNumber` is the extended (`uint32`) sequence number,
`arrivalTime` an `int64` clock reading. -/
structure pktInfo where
  sequenceNumber : Nat
  arrivalTime : Int
deriving DecidableEq, Repr

/-- State of a `recorderOld`. `cycles` is a `uint32`, `lastSequenceNumber` a `uint16`,
`senderSSRC` and `mediaSSRC` are `uint32`, `fbPktCnt` is a `uint8`. -/
structure recorderOld where
  receivedPackets : List pktInfo
  cycles : Nat
  lastSequenceNumber : Nat
  senderSSRC : Nat
  mediaSSRC : Nat
  fbPktCnt : Nat
deriving DecidableEq, Repr

/-- Type invariant of a `recorderOld` value: every field is within its machine width. -/
def recorderOld.wf (r : recorderOld) : Prop :=
  r.cycles < 2 ^ 32 ∧ r.lastSequenceNumber < 2 ^ 16 ∧ r.senderSSRC < 2 ^ 32 ∧
    r.mediaSSRC < 2 ^ 32 ∧ r.fbPktCnt < 2 ^ 8

instance (r : recorderOld) : Decidable r.wf := by
  unfold recorderOld.wf; infer_instance

/-- Constructor `newRecorderOld`: empty ledger, every other field zero. -/
def newRecorderOld (senderSSRC : Nat) : recorderOld :=
  { receivedPackets := []
    cycles := 0
    lastSequenceNumber := 0
    senderSSRC := senderSSRC
    mediaSSRC := 0
    fbPktCnt := 0 }

/-! ## Go slice primitives -/

/-- Conversion `uint16(x)`. -/
def uint16 (x : Nat) : Nat := x % 2 ^ 16

/-- Re-slicing `l[k:]`; the bound must satisfy `k ≤ len(l)`. -/
def sliceFrom {α : Type} (l : List α) (k : Nat) : Option (List α) :=
  if k ≤ l.length then some (l.drop k) else none

/-- Assignment `l[i] = v`; the index must satisfy `i < len(l)`. -/
def setIndex {α : Type} (l : List α) (i : Nat) (v : α) : Option (List α) :=
  if i < l.length then some (l.set i v) else none

/-- Builtin `copy(dst, src)`: the new contents of `dst`, whose first
`min(len(dst), len(src))` cells are taken from `src` (as read before the copy). -/
def copy {α : Type} (dst src : List α) : List α :=
  src.take dst.length ++ dst.drop src.length

/-! ## `insertSorted` -/

/-- The backward scan of `insertSorted`. The counter is `i + 1` for the Go loop
variable `i`; counter `0` is the loop exit (`i = -1`). -/
def insertSortedLoop (list : List pktInfo) (element : pktInfo) : Nat → Option (List pktInfo)
  | 0 => some ([element] ++ list)
  | i + 1 =>
    match list[i]? with
    | none => none
    | some cur =>
      if cur.sequenceNumber < element.sequenceNumber then
        let list1 := list ++ [⟨0, 0⟩]
        match sliceFrom list1 (i + 2), sliceFrom list1 (i + 1) with
        | some dst, some src => setIndex (list1.take (i + 2) ++ copy dst src) (i + 1) element
        | _, _ => none
      else if cur.sequenceNumber = element.sequenceNumber then
        setIndex list i element
      else
        insertSortedLoop list element i

/-- Function `insertSorted(list, element)`. -/
def insertSorted (list : List pktInfo) (element : pktInfo) : Option (List pktInfo) :=
  if list.length = 0 then some (list ++ [element])
  else insertSortedLoop list element list.length

/-! ## `Record` -/

/-- Method `Record(mediaSSRC, sequenceNumber, arrivalTime)`; `cycles` is incremented in
`uint32` arithmetic. -/
def Record (r : recorderOld) (mediaSSRC sequenceNumber : Nat) (arrivalTime : Int) :
    Option recorderOld :=
  let r1 := { r with mediaSSRC := mediaSSRC }
  let r2 :=
    if sequenceNumber < 0x0fff ∧ (r1.lastSequenceNumber &&& 0xffff) > 0xf000 then
      { r1 with cycles := (r1.cycles + (1 <<< 16)) % 2 ^ 32 }
    else r1
  match insertSorted r2.receivedPackets ⟨r2.cycles ||| sequenceNumber, arrivalTime⟩ with
  | none => none
  | some list => some { r2 with receivedPackets := list, lastSequenceNumber := sequenceNumber }

/-- One `Record` call: media SSRC, 16-bit sequence number, arrival time. -/
structure RecordCall where
  mediaSSRC : Nat
  sequenceNumber : Nat
  arrivalTime : Int
deriving DecidableEq, Repr

/-- A run of `Record` calls, in call order, with no `BuildFeedbackPacket` in between. -/
def recordAll : recorderOld → List RecordCall → Option recorderOld
  | r, [] => some r
  | r, c :: cs =>
    match Record r c.mediaSSRC c.sequenceNumber c.arrivalTime with
    | none => none
    | some r1 => recordAll r1 cs

/-! ## The report encoder used by `BuildFeedbackPacket` -/

/-- Modelled from the spec: the `feedback` report under construction (its declaration
is not in `twcc_old.go`). It carries the sender identity, the media identity, its own
report index, the base sequence number and base arrival time once `setBase` has been
called (`none` before), and the per-entry records accepted so far, in order. -/
structure feedback where
  senderSSRC : Nat
  mediaSSRC : Nat
  fbPktCnt : Nat
  base : Option (Nat × Int)
  received : List (Nat × Int)
deriving DecidableEq, Repr

/-- Modelled from the spec: `newFeedback(senderSSRC, mediaSSRC, count)` starts a report
with the given identities and report index, no base fields and no entries. -/
def newFeedback (senderSSRC mediaSSRC count : Nat) : feedback :=
  { senderSSRC := senderSSRC
    mediaSSRC := mediaSSRC
    fbPktCnt := count
    base := none
    received := [] }

/-- Modelled from the spec: `setBase(sequenceNumber, time)` sets the base sequence number
and the base arrival time of the report. -/
def feedback.setBase (f : feedback) (sequenceNumber : Nat) (time : Int) : feedback :=
  { f with base := some (sequenceNumber, time) }

/-- Modelled from the spec: `addReceived(sequenceNumber, time)` attempts to add one
entry. The capacity check of the encoder is the parameter `fits`; when it accepts, the
entry is recorded and the call returns `true`, otherwise the report is unchanged and
the call returns `false`. -/
def feedback.addReceived (fits : feedback → Nat → Int → Bool) (f : feedback)
    (sequenceNumber : Nat) (time : Int) : feedback × Bool :=
  if fits f sequenceNumber time then
    ({ f with received := f.received ++ [(sequenceNumber, time)] }, true)
  else (f, false)

/-- Modelled from the spec: `getRTCP()` finalises the report; the packet is represented
by the report contents at that moment. -/
def feedback.getRTCP (f : feedback) : feedback := f

/-! ## `BuildFeedbackPacket` -/

/-- Loop state of `BuildFeedbackPacket`: the recorder field `fbPktCnt`, the report
under construction (`feedback`) and the packets emitted so far (`pkts`). -/
structure buildState where
  fbPktCnt : Nat
  pkts : List feedback
  feedback : feedback
deriving DecidableEq, Repr

/-- The body of `for _, pkt := range r.receivedPackets` for one entry `pkt`. -/
def buildStep (fits : feedback → Nat → Int → Bool) (senderSSRC mediaSSRC : Nat)
    (st : buildState) (pkt : pktInfo) : buildState :=
  let res := st.feedback.addReceived fits (uint16 (pkt.sequenceNumber &&& 0xffff)) pkt.arrivalTime
  if res.2 = false then
    let pkts := st.pkts ++ [res.1.getRTCP]
    let fresh := newFeedback senderSSRC mediaSSRC st.fbPktCnt
    let cnt := (st.fbPktCnt + 1) % 2 ^ 8
    let retry := fresh.addReceived fits (uint16 (pkt.sequenceNumber &&& 0xffff)) pkt.arrivalTime
    ⟨cnt, pkts, retry.1⟩
  else
    ⟨st.fbPktCnt, st.pkts, res.1⟩

/-- The loop `for _, pkt := range r.receivedPackets`, over the entries in order. -/
def buildLoop (fits : feedback → Nat → Int → Bool) (senderSSRC mediaSSRC : Nat) :
    List pktInfo → buildState → buildState
  | [], st => st
  | pkt :: rest, st =>
    buildLoop fits senderSSRC mediaSSRC rest (buildStep fits senderSSRC mediaSSRC st pkt)

/-- Loop state on entry to the loop of `BuildFeedbackPacket`: the first report has been
created with the current report index, `fbPktCnt` has been incremented (as a `uint8`),
`setBase` has been called with the fields of `receivedPackets[0]`, and `pkts` is nil. -/
def buildInit (r : recorderOld) (first : pktInfo) : buildState :=
  ⟨(r.fbPktCnt + 1) % 2 ^ 8, [],
    (newFeedback r.senderSSRC r.mediaSSRC r.fbPktCnt).setBase
      (uint16 (first.sequenceNumber &&& 0xffff)) first.arrivalTime⟩

/-- Method `BuildFeedbackPacket()`: the recorder after the call and the returned
packets (`nil` is the empty list). -/
def BuildFeedbackPacket (fits : feedback → Nat → Int → Bool) (r : recorderOld) :
    Option (recorderOld × List feedback) :=
  if r.receivedPackets.length < 2 then some (r, [])
  else
    match r.receivedPackets[0]? with
    | none => none
    | some first =>
      let st := buildLoop fits r.senderSSRC r.mediaSSRC r.receivedPackets (buildInit r first)
      some ({ r with receivedPackets := [], fbPktCnt := st.fbPktCnt },
        st.pkts ++ [st.feedback.getRTCP])

/-- One call on a recorder: `Record` with its arguments, or `BuildFeedbackPacket`. -/
inductive Call where
  | record (mediaSSRC sequenceNumber : Nat) (arrivalTime : Int)
  | build
deriving DecidableEq, Repr

/-- The recorder after one call (the packets returned by a build are dropped). -/
def step (fits : feedback → Nat → Int → Bool) (r : recorderOld) : Call → Option recorderOld
  | Call.record m s t => Record r m s t
  | Call.build => (BuildFeedbackPacket fits r).map Prod.fst

/-- The recorder after a sequence of calls, in order. -/
def run (fits : feedback → Nat → Int → Bool) : recorderOld → List Call → Option recorderOld
  | r, [] => some r
  | r, c :: cs =>
    match step fits r c with
    | none => none
    | some r1 => run fits r1 cs

/-- Argument types of a call: `mediaSSRC` is a `uint32`, `sequenceNumber` a `uint16`,
`arrivalTime` an `int64`. -/
def Call.wf : Call → Prop
  | Call.record m s t => m < 2 ^ 32 ∧ s < 2 ^ 16 ∧ -(2 : Int) ^ 63 ≤ t ∧ t < (2 : Int) ^ 63
  | Call.build => True

/-- States reachable from `newRecorderOld` by well-typed `Record` and
`BuildFeedbackPacket` calls. -/
def Reachable (fits : feedback → Nat → Int → Bool) (r : recorderOld) : Prop :=
  ∃ senderSSRC calls, senderSSRC < 2 ^ 32 ∧ (∀ c ∈ calls, Call.wf c) ∧
    run fits (newRecorderOld senderSSRC) calls = some r

/-! ## Specification-side notions for sequence extension -/

/-- Sequence number `b` is ahead of `a` modulo 65536: the 16-bit difference `b - a`,
read as a signed number, is positive. -/
def ahead (a b : Nat) : Prop :=
  0 < (b + 65536 - a) % 65536 ∧ (b + 65536 - a) % 65536 < 32768

instance (a b : Nat) : Decidable (ahead a b) := by
  unfold ahead; infer_instance

/-- A step from `a` to `b` that is ahead and, when it crosses the wrap (`b < a`), goes
from above `0xf000` to below `0x0fff`. -/
def advances (a b : Nat) : Prop :=
  ahead a b ∧ (b < a → 0xf000 < a ∧ b < 0x0fff)

instance (a b : Nat) : Decidable (advances a b) := by
  unfold advances; infer_instance

/-- Number of whole wraps of the 16-bit counter after the sequence numbers `ss`, starting
from `wraps` wraps and previous sequence number `prev`: one more for each number that
is below its predecessor. -/
def wrapsAfter (wraps prev : Nat) : List Nat → Nat
  | [] => wraps
  | s :: ss => wrapsAfter (wraps + if s < prev then 1 else 0) s ss

/-- The entries expected for a run of calls: each has extended sequence
`(whole wraps so far) * 65536 + seq16` and the arrival time of its call. -/
def unwrapped (wraps prev : Nat) : List RecordCall → List pktInfo
  | [] => []
  | c :: cs =>
    ⟨(wraps + if c.sequenceNumber < prev then 1 else 0) * 65536 + c.sequenceNumber,
        c.arrivalTime⟩ ::
      unwrapped (wraps + if c.sequenceNumber < prev then 1 else 0) c.sequenceNumber cs

/-! ## Specification-side notions for `BuildFeedbackPacket` -/

/-- The record that `BuildFeedbackPacket` hands to `addReceived` for a ledger entry: the
low 16 bits of the extended sequence number and the arrival time. -/
def entryOf (pkt : pktInfo) : Nat × Int :=
  (uint16 (pkt.sequenceNumber &&& 0xffff), pkt.arrivalTime)

/-- Number of entries whose first `addReceived` attempt returned `false`, when the loop
of `BuildFeedbackPacket` runs over the entries from loop state `st`. -/
def failedFirstAdds (fits : feedback → Nat → Int → Bool) (senderSSRC mediaSSRC : Nat) :
    List pktInfo → buildState → Nat
  | [], _ => 0
  | pkt :: rest, st =>
    (if (st.feedback.addReceived fits (uint16 (pkt.sequenceNumber &&& 0xffff))
        pkt.arrivalTime).2 = false then 1 else 0)
      + failedFirstAdds fits senderSSRC mediaSSRC rest
          (buildStep fits senderSSRC mediaSSRC st pkt)

/-- Link between consecutive reports of one call: the later report starts with an entry
that the earlier report refused. -/
def startsWithRefused (fits : feedback → Nat → Int → Bool) (f g : feedback) : Prop :=
  ∃ e rest, g.received = e :: rest ∧ fits f e.1 e.2 = false

/-- The contiguous run of `n` report indices starting at `i`, increasing modulo 256. -/
def indexRun (i n : Nat) : List Nat :=
  (List.range n).map (fun j => (i + j) % 2 ^ 8)

/-! ## Reasoning devices -/

/-- The scan of `insertSorted` read off the ledger listed newest first: the
entries are visited from the tail of the ledger towards its head. Used to reason about
`insertSortedLoop` without indices. -/
def scanInsert : List pktInfo → pktInfo → List pktInfo
  | [], e => [e]
  | x :: xs, e =>
    if x.sequenceNumber < e.sequenceNumber then e :: x :: xs
    else if x.sequenceNumber = e.sequenceNumber then e :: xs
    else x :: scanInsert xs e

/-- Strictly ascending by extended sequence number. -/
def Ascending (l : List pktInfo) : Prop :=
  l.Pairwise (fun a b => a.sequenceNumber < b.sequenceNumber)

/-- Modelled from the spec: the per-entry receive deltas carried by a report (the encoder
that computes them is not in `twcc_old.go`), each the arrival time of an entry relative
to the base arrival time of the report; none while no base is set. -/
def feedback.deltas (f : feedback) : List Int :=
  match f.base with
  | none => []
  | some b => f.received.map (fun e => e.2 - b.2)

/-- The media SSRC passed to the most recent `Record` call of a call sequence; `m0`
when the sequence has no `Record` call. -/
def lastMedia (m0 : Nat) : List Call → Nat
  | [] => m0
  | Call.record m _ _ :: cs => lastMedia m cs
  | Call.build :: cs => lastMedia m0 cs

/-- One round of calls that makes `Record` count a wrap and then drains the ledger:
sequence number `0xffff`, then `0`, then `BuildFeedbackPacket`. -/
def wrapRound : List Call :=
  [Call.record 0 0xffff 0, Call.record 0 0 0, Call.build]

/-- The call sequence made of `k` rounds `wrapRound`. -/
def wrapRounds (k : Nat) : List Call :=
  (List.replicate k wrapRound).flatten

/-- The calls `Record(m j, (s0 + j) mod 65536, t j)` for `j = 0, ..., k`: consecutive
sequence numbers starting at `s0`. -/
def consecutiveCalls (m : Nat → Nat) (t : Nat → Int) (s0 k : Nat) : List RecordCall :=
  (List.range (k + 1)).map (fun j => ⟨m j, (s0 + j) % 65536, t j⟩)

/-! ## Specification-side notions for the ledger as an ordered map -/

/-- The ledger after inserting the entries `es` one by one, in order, with `insertSorted`,
starting from the ledger `l`. -/
def insertAll : List pktInfo → List pktInfo → Option (List pktInfo)
  | l, [] => some l
  | l, e :: es =>
    match insertSorted l e with
    | none => none
    | some l1 => insertAll l1 es

/-- The map with last-write-wins built from the inserted entries `es` (in insertion
order): the arrival time of the last inserted entry with extended sequence `k`. -/
def lastWrite : List pktInfo → Nat → Option Int
  | [], _ => none
  | e :: es, k =>
    match lastWrite es k with
    | some t => some t
    | none => if e.sequenceNumber = k then some e.arrivalTime else none

/-- The bindings of the map `lastWrite es`, listed ascending by key. -/
def orderedMapList (es : List pktInfo) : List pktInfo :=
  (List.insertionSort (· ≤ ·) (es.map pktInfo.sequenceNumber).dedup).filterMap
    (fun k => (lastWrite es k).map (fun t => ⟨k, t⟩))

end twcc

/-!
# Sender stream statistics (`pkg/report/sender_stream.go`)

The mutex of `senderStream` is left out: every method holds it for its whole body, so it
has no effect on the sequential behaviour modelled here.
-/

namespace report

/-- The fields of `rtp.Header` read by `processRTP`: `SequenceNumber` is a `uint16`,
`Timestamp` a `uint32`. -/
structure Header where
  SequenceNumber : Nat
  Timestamp : Nat
deriving DecidableEq, Repr

/-- State of a `senderStream`. `ssrc`, `lastRTPTimeRTP`, `packetCount` and `octetCount`
are `uint32`, `lastRTPSN` is a `uint16`; `clockRate` is the `float64` value of a `uint32`,
kept as that integer; `lastRTPTimeTime` is a `time.Time`, kept as an integer instant
counted from the zero `time.Time`. -/
structure senderStream where
  ssrc : Nat
  clockRate : Nat
  useLatestPacket : Bool
  lastRTPTimeRTP : Nat
  lastRTPTimeTime : Int
  lastRTPSN : Nat
  packetCount : Nat
  octetCount : Nat
deriving DecidableEq, Repr

/-- Type invariant of a `senderStream` value. -/
def senderStream.wf (s : senderStream) : Prop :=
  s.ssrc < 2 ^ 32 ∧ s.clockRate < 2 ^ 32 ∧ s.lastRTPTimeRTP < 2 ^ 32 ∧ s.lastRTPSN < 2 ^ 16 ∧
    s.packetCount < 2 ^ 32 ∧ s.octetCount < 2 ^ 32

instance (s : senderStream) : Decidable s.wf := by
  unfold senderStream.wf; infer_instance

/-- Constructor `newSenderStream(ssrc, clockRate)`: every other field has its zero value. -/
def newSenderStream (ssrc clockRate : Nat) : senderStream :=
  { ssrc := ssrc
    clockRate := clockRate
    useLatestPacket := false
    lastRTPTimeRTP := 0
    lastRTPTimeTime := 0
    lastRTPSN := 0
    packetCount := 0
    octetCount := 0 }

/-- Subtraction `a - b` of two `uint16` values. -/
def sub16 (a b : Nat) : Nat := (a % 2 ^ 16 + 2 ^ 16 - b % 2 ^ 16) % 2 ^ 16

/-- Conversion `int16(x)` of a `uint16` value: two's complement reading. -/
def int16 (x : Nat) : Int :=
  if x % 2 ^ 16 < 2 ^ 15 then ((x % 2 ^ 16 : Nat) : Int) else ((x % 2 ^ 16 : Nat) : Int) - 2 ^ 16

/-- Method `processRTP(now, header, payload)`; the payload is its list of bytes, and
`uint32(len(payload))` is the length reduced modulo `2^32`. -/
def processRTP (stream : senderStream) (now : Int) (header : Header) (payload : List Nat) :
    senderStream :=
  let stream1 :=
    if stream.useLatestPacket ∨ stream.packetCount = 0 ∨
        int16 (sub16 header.SequenceNumber stream.lastRTPSN) > 0 then
      { stream with
        lastRTPSN := header.SequenceNumber
        lastRTPTimeRTP := header.Timestamp
        lastRTPTimeTime := now }
    else stream
  { stream1 with
    packetCount := (stream1.packetCount + 1) % 2 ^ 32
    octetCount := (stream1.octetCount + payload.length % 2 ^ 32) % 2 ^ 32 }

/-- The fields of `rtcp.SenderReport` filled in by `generateReport`. -/
structure SenderReport where
  SSRC : Nat
  NTPTime : Nat
  RTPTime : Nat
  PacketCount : Nat
  OctetCount : Nat
deriving DecidableEq, Repr

/-- Method `generateReport(now)`: the stream after the call and the report. `toNTP` stands
for `ntp.ToNTP`, which is not in this file, and `elapsedTicks now last clockRate` for the
floating-point expression `uint32(now.Sub(last).Seconds() * clockRate)`; the sum is a
`uint32` addition. -/
def generateReport (toNTP : Int → Nat) (elapsedTicks : Int → Int → Nat → Nat)
    (stream : senderStream) (now : Int) : senderStream × SenderReport :=
  (stream,
    { SSRC := stream.ssrc
      NTPTime := toNTP now
      RTPTime := (stream.lastRTPTimeRTP
        + elapsedTicks now stream.lastRTPTimeTime stream.clockRate) % 2 ^ 32
      PacketCount := stream.packetCount
      OctetCount := stream.octetCount })

/-- One `processRTP` call: the instant `now`, the header and the payload bytes. -/
structure Packet where
  now : Int
  header : Header
  payload : List Nat
deriving DecidableEq, Repr

/-- The stream after a sequence of `processRTP` calls, in order. -/
def processAll : senderStream → List Packet → senderStream
  | stream, [] => stream
  | stream, p :: ps => processAll (processRTP stream p.now p.header p.payload) ps

end report

namespace twcc

/-! ## Lemmas on `insertSorted` -/

theorem copy_shift {α : Type} (post : List α) (z y : α) :
    copy (List.drop 1 (post ++ [z])) (post ++ [y]) = post := by
  unfold copy
  simp

theorem sliceFrom_append {α : Type} (pre post : List α) :
    sliceFrom (pre ++ post) pre.length = some post := by
  unfold sliceFrom
  rw [if_pos (by simp)]
  simp

theorem insertSortedLoop_append (e : pktInfo) (post : List pktInfo) :
    ∀ pre : List pktInfo, insertSortedLoop (pre ++ post) e pre.length
      = some ((scanInsert pre.reverse e).reverse ++ post) := by
  intro pre
  induction pre using List.reverseRecOn generalizing post with
  | nil => simp [insertSortedLoop, scanInsert]
  | append_singleton pre cur ih =>
    have hlen : (pre ++ [cur]).length = pre.length + 1 := by simp
    rw [hlen]
    unfold insertSortedLoop
    have hget : (pre ++ [cur] ++ post)[pre.length]? = some cur := by
      rw [List.append_assoc, List.getElem?_append_right (le_refl _)]
      simp
    rw [hget]
    simp only [List.reverse_append, List.reverse_cons, List.reverse_nil, List.nil_append,
      List.singleton_append, scanInsert]
    by_cases h1 : cur.sequenceNumber < e.sequenceNumber
    · rw [if_pos h1, if_pos h1]
      have hs1 : sliceFrom (pre ++ [cur] ++ post ++ [(⟨0, 0⟩ : pktInfo)]) (pre.length + 1)
          = some (post ++ [⟨0, 0⟩]) := by
        have := sliceFrom_append (pre ++ [cur]) (post ++ [(⟨0, 0⟩ : pktInfo)])
        simpa using this
      have hs2 : sliceFrom (pre ++ [cur] ++ post ++ [(⟨0, 0⟩ : pktInfo)]) (pre.length + 2)
          = some (List.drop 1 (post ++ [⟨0, 0⟩])) := by
        unfold sliceFrom
        rw [if_pos (by simp)]
        have : pre.length + 2 = (pre ++ [cur]).length + 1 := by simp
        rw [this, List.append_assoc (pre ++ [cur]), ← List.drop_drop, List.drop_left]
      simp only [hs1, hs2]
      rw [copy_shift]
      obtain ⟨y, hy⟩ : ∃ y, List.take 1 (post ++ [(⟨0, 0⟩ : pktInfo)]) = [y] := by
        cases post <;> simp
      have htake : List.take (pre.length + 2) (pre ++ [cur] ++ post ++ [(⟨0, 0⟩ : pktInfo)])
          = pre ++ [cur] ++ [y] := by
        have : pre.length + 2 = (pre ++ [cur]).length + 1 := by simp
        rw [this, List.append_assoc (pre ++ [cur]), List.take_append, hy]
      rw [htake]
      unfold setIndex
      rw [if_pos (by simp)]
      have hset : (pre ++ [cur] ++ [y] ++ post).set (pre.length + 1) e
          = pre ++ [cur] ++ [e] ++ post := by
        have : pre.length + 1 = (pre ++ [cur]).length := by simp
        rw [this, List.append_assoc (pre ++ [cur]), List.append_assoc (pre ++ [cur]),
          List.set_append_right _ _ (le_refl _)]
        simp
      rw [hset]
      simp
    · rw [if_neg h1, if_neg h1]
      by_cases h2 : cur.sequenceNumber = e.sequenceNumber
      · rw [if_pos h2, if_pos h2]
        unfold setIndex
        rw [if_pos (by simp)]
        simp
      · rw [if_neg h2, if_neg h2]
        have := ih (cur :: post)
        simpa using this

theorem insertSorted_eq (list : List pktInfo) (e : pktInfo) :
    insertSorted list e = some (scanInsert list.reverse e).reverse := by
  unfold insertSorted
  by_cases h : list.length = 0
  · rw [if_pos h]
    have : list = [] := List.length_eq_zero.mp h
    subst this
    simp [scanInsert]
  · rw [if_neg h]
    have := insertSortedLoop_append e [] list
    simpa using this

theorem mem_scanInsert {xs : List pktInfo} {e y : pktInfo} (h : y ∈ scanInsert xs e) :
    y = e ∨ y ∈ xs := by
  induction xs with
  | nil => simpa [scanInsert] using h
  | cons x xs ih =>
    unfold scanInsert at h
    split_ifs at h with h1 h2
    · simpa using h
    · rcases List.mem_cons.mp h with h | h
      · exact Or.inl h
      · exact Or.inr (List.mem_cons_of_mem _ h)
    · rcases List.mem_cons.mp h with h | h
      · exact Or.inr (h ▸ List.mem_cons_self _ _)
      · rcases ih h with h | h
        · exact Or.inl h
        · exact Or.inr (List.mem_cons_of_mem _ h)

theorem scanInsert_descending {xs : List pktInfo} (e : pktInfo)
    (h : xs.Pairwise (fun a b => b.sequenceNumber < a.sequenceNumber)) :
    (scanInsert xs e).Pairwise (fun a b => b.sequenceNumber < a.sequenceNumber) := by
  induction xs with
  | nil => simp [scanInsert]
  | cons x xs ih =>
    rw [List.pairwise_cons] at h
    unfold scanInsert
    split_ifs with h1 h2
    · refine List.pairwise_cons.mpr ⟨?_, List.pairwise_cons.mpr h⟩
      intro y hy
      rcases List.mem_cons.mp hy with hy | hy
      · rw [hy]; exact h1
      · exact lt_trans (h.1 y hy) h1
    · refine List.pairwise_cons.mpr ⟨?_, h.2⟩
      intro y hy
      rw [← h2]; exact h.1 y hy
    · refine List.pairwise_cons.mpr ⟨?_, ih h.2⟩
      intro y hy
      rcases mem_scanInsert hy with hy | hy
      · rw [hy]; omega
      · exact h.1 y hy

theorem insertSorted_ascending {list list1 : List pktInfo} {e : pktInfo}
    (hasc : Ascending list) (h : insertSorted list e = some list1) : Ascending list1 := by
  rw [insertSorted_eq] at h
  cases h
  unfold Ascending at *
  rw [List.pairwise_reverse]
  apply scanInsert_descending
  rw [← List.pairwise_reverse] at hasc
  simpa using hasc

theorem scanInsert_skip {ys : List pktInfo} (rest : List pktInfo) {e : pktInfo}
    (h : ∀ y ∈ ys, e.sequenceNumber < y.sequenceNumber) :
    scanInsert (ys ++ rest) e = ys ++ scanInsert rest e := by
  induction ys with
  | nil => rfl
  | cons y ys ih =>
    have hy := h y (List.mem_cons_self _ _)
    rw [List.cons_append, scanInsert, if_neg (by omega), if_neg (by omega),
      ih (fun z hz => h z (List.mem_cons_of_mem _ hz))]
    rfl

theorem insertSorted_overwrite (pre post : List pktInfo) (x e : pktInfo)
    (hasc : Ascending (pre ++ x :: post)) (hk : x.sequenceNumber = e.sequenceNumber) :
    insertSorted (pre ++ x :: post) e = some (pre ++ e :: post) := by
  rw [insertSorted_eq]
  have hpost : ∀ y ∈ post.reverse, e.sequenceNumber < y.sequenceNumber := by
    intro y hy
    unfold Ascending at hasc
    rw [List.pairwise_append] at hasc
    have := (List.pairwise_cons.mp hasc.2.1).1 y (List.mem_reverse.mp hy)
    omega
  have : (pre ++ x :: post).reverse = post.reverse ++ x :: pre.reverse := by simp
  rw [this, scanInsert_skip _ hpost, scanInsert, if_neg (by omega), if_pos hk]
  simp

theorem insertSorted_append_of_lt (list : List pktInfo) (x e : pktInfo)
    (h : x.sequenceNumber < e.sequenceNumber) :
    insertSorted (list ++ [x]) e = some (list ++ [x, e]) := by
  rw [insertSorted_eq]
  simp [scanInsert, h]

theorem self_mem_scanInsert (xs : List pktInfo) (e : pktInfo) : e ∈ scanInsert xs e := by
  induction xs with
  | nil => simp [scanInsert]
  | cons x xs ih =>
    unfold scanInsert
    split_ifs
    · simp
    · simp
    · exact List.mem_cons_of_mem _ ih

theorem mem_insertSorted {list list1 : List pktInfo} {e : pktInfo}
    (h : insertSorted list e = some list1) : e ∈ list1 := by
  rw [insertSorted_eq] at h
  cases h
  rw [List.mem_reverse]
  exact self_mem_scanInsert _ _

theorem and_mask16 {x : Nat} (h : x < 2 ^ 16) : x &&& 0xffff = x :=
  Nat.and_pow_two_sub_one_of_lt_two_pow h

theorem Record_eq (r : recorderOld) (m s : Nat) (t : Int) (c : Nat)
    (hc : c = if s < 0x0fff ∧ (r.lastSequenceNumber &&& 0xffff) > 0xf000
      then (r.cycles + 0x10000) % 2 ^ 32 else r.cycles) :
    Record r m s t = some
      { receivedPackets := (scanInsert r.receivedPackets.reverse ⟨c ||| s, t⟩).reverse
        cycles := c
        lastSequenceNumber := s
        senderSSRC := r.senderSSRC
        mediaSSRC := m
        fbPktCnt := r.fbPktCnt } := by
  subst hc
  unfold Record
  have h16 : (1 <<< 16 : Nat) = 0x10000 := by decide
  simp only [h16]
  split_ifs with h
  · simp only [insertSorted_eq]
  · simp only [insertSorted_eq]

/-! ## Lemmas on `Record` and `BuildFeedbackPacket` -/

theorem Record_ascending {r r1 : recorderOld} {m s : Nat} {t : Int}
    (hasc : Ascending r.receivedPackets) (h : Record r m s t = some r1) :
    Ascending r1.receivedPackets := by
  rw [Record_eq r m s t _ rfl] at h
  cases h
  exact insertSorted_ascending hasc (insertSorted_eq _ _)

theorem BuildFeedbackPacket_small (fits : feedback → Nat → Int → Bool) (r : recorderOld)
    (h : r.receivedPackets.length < 2) : BuildFeedbackPacket fits r = some (r, []) := by
  unfold BuildFeedbackPacket
  rw [if_pos h]

theorem BuildFeedbackPacket_large (fits : feedback → Nat → Int → Bool) (r : recorderOld)
    (first : pktInfo) (rest : List pktInfo) (hl : r.receivedPackets = first :: rest)
    (h : 2 ≤ r.receivedPackets.length) (st : buildState)
    (hst : st = buildLoop fits r.senderSSRC r.mediaSSRC r.receivedPackets
      (buildInit r first)) :
    BuildFeedbackPacket fits r
      = some ({ r with receivedPackets := [], fbPktCnt := st.fbPktCnt },
          st.pkts ++ [st.feedback]) := by
  subst hst
  unfold BuildFeedbackPacket
  rw [if_neg (by omega)]
  simp only [hl, List.getElem?_cons_zero, feedback.getRTCP]

theorem ledger_head_of_two_le {l : List pktInfo} (h : 2 ≤ l.length) :
    ∃ first rest, l = first :: rest := by
  cases l with
  | nil => simp at h
  | cons a l => exact ⟨a, l, rfl⟩

theorem step_ascending (fits : feedback → Nat → Int → Bool) {r r1 : recorderOld} {c : Call}
    (hasc : Ascending r.receivedPackets) (h : step fits r c = some r1) :
    Ascending r1.receivedPackets := by
  cases c with
  | record m s t => exact Record_ascending hasc h
  | build =>
    simp only [step] at h
    by_cases hlen : r.receivedPackets.length < 2
    · rw [BuildFeedbackPacket_small fits r hlen] at h
      cases h
      exact hasc
    · obtain ⟨first, rest, hl⟩ := ledger_head_of_two_le (by omega : 2 ≤ r.receivedPackets.length)
      rw [BuildFeedbackPacket_large fits r first rest hl (by omega) _ rfl] at h
      cases h
      simp [Ascending]

theorem run_ascending (fits : feedback → Nat → Int → Bool) (calls : List Call) :
    ∀ r r1 : recorderOld, Ascending r.receivedPackets → run fits r calls = some r1 →
      Ascending r1.receivedPackets := by
  induction calls with
  | nil =>
    intro r r1 hasc h
    simp only [run] at h
    cases h
    exact hasc
  | cons c cs ih =>
    intro r r1 hasc h
    simp only [run] at h
    cases hs : step fits r c with
    | none => simp [hs] at h
    | some r2 =>
      rw [hs] at h
      exact ih r2 r1 (step_ascending fits hasc hs) h

/-! ## Lemmas on the report loop -/

theorem addReceived_accept (fits : feedback → Nat → Int → Bool) (f : feedback) (s : Nat)
    (t : Int) (h : fits f s t = true) :
    f.addReceived fits s t = ({ f with received := f.received ++ [(s, t)] }, true) := by
  unfold feedback.addReceived
  rw [if_pos h]

theorem addReceived_refuse (fits : feedback → Nat → Int → Bool) (f : feedback) (s : Nat)
    (t : Int) (h : fits f s t = false) : f.addReceived fits s t = (f, false) := by
  unfold feedback.addReceived
  rw [if_neg (by simp [h])]

theorem addReceived_fbPktCnt (fits : feedback → Nat → Int → Bool) (f : feedback) (s : Nat)
    (t : Int) : (f.addReceived fits s t).1.fbPktCnt = f.fbPktCnt := by
  unfold feedback.addReceived
  split_ifs <;> rfl

theorem buildStep_accept (fits : feedback → Nat → Int → Bool) (snd med : Nat)
    (st : buildState) (pkt : pktInfo) (h : fits st.feedback (entryOf pkt).1 (entryOf pkt).2 = true) :
    buildStep fits snd med st pkt
      = ⟨st.fbPktCnt, st.pkts,
          { st.feedback with received := st.feedback.received ++ [entryOf pkt] }⟩ := by
  unfold buildStep
  simp only [entryOf] at h
  rw [addReceived_accept fits _ _ _ h]
  simp [entryOf]

theorem buildStep_refuse (fits : feedback → Nat → Int → Bool) (snd med : Nat)
    (st : buildState) (pkt : pktInfo) (h : fits st.feedback (entryOf pkt).1 (entryOf pkt).2 = false) :
    buildStep fits snd med st pkt
      = ⟨(st.fbPktCnt + 1) % 2 ^ 8, st.pkts ++ [st.feedback],
          ((newFeedback snd med st.fbPktCnt).addReceived fits
            (entryOf pkt).1 (entryOf pkt).2).1⟩ := by
  unfold buildStep
  simp only [entryOf] at h
  rw [addReceived_refuse fits _ _ _ h]
  simp [entryOf, feedback.getRTCP]

theorem buildStep_records (fits : feedback → Nat → Int → Bool) (snd med : Nat)
    (hfresh : ∀ a b c s t, fits (newFeedback a b c) s t = true)
    (st : buildState) (pkt : pktInfo) :
    ((buildStep fits snd med st pkt).pkts.map feedback.received).flatten
        ++ (buildStep fits snd med st pkt).feedback.received
      = (st.pkts.map feedback.received).flatten ++ st.feedback.received ++ [entryOf pkt] := by
  cases h : fits st.feedback (entryOf pkt).1 (entryOf pkt).2 with
  | true => rw [buildStep_accept fits snd med st pkt h]; simp
  | false =>
    rw [buildStep_refuse fits snd med st pkt h, addReceived_accept fits _ _ _ (hfresh _ _ _ _ _)]
    simp [newFeedback]

theorem buildLoop_records (fits : feedback → Nat → Int → Bool) (snd med : Nat)
    (hfresh : ∀ a b c s t, fits (newFeedback a b c) s t = true) (l : List pktInfo) :
    ∀ st : buildState,
      ((buildLoop fits snd med l st).pkts.map feedback.received).flatten
          ++ (buildLoop fits snd med l st).feedback.received
        = (st.pkts.map feedback.received).flatten ++ st.feedback.received ++ l.map entryOf := by
  induction l with
  | nil => intro st; simp [buildLoop]
  | cons pkt rest ih =>
    intro st
    rw [buildLoop, ih, buildStep_records fits snd med hfresh]
    simp

theorem buildStep_refused (fits : feedback → Nat → Int → Bool) (snd med : Nat)
    (hfresh : ∀ a b c s t, fits (newFeedback a b c) s t = true)
    (st : buildState) (pkt : pktInfo)
    (h : List.Chain' (startsWithRefused fits) (st.pkts ++ [st.feedback])) :
    List.Chain' (startsWithRefused fits)
      ((buildStep fits snd med st pkt).pkts ++ [(buildStep fits snd med st pkt).feedback]) := by
  cases hf : fits st.feedback (entryOf pkt).1 (entryOf pkt).2 with
  | true =>
    rw [buildStep_accept fits snd med st pkt hf]
    rw [List.chain'_append] at h ⊢
    refine ⟨h.1, List.chain'_singleton _, ?_⟩
    intro x hx y hy
    simp only [List.head?_cons, Option.mem_def, Option.some.injEq] at hy
    subst hy
    obtain ⟨e, rest, he, hfe⟩ := h.2.2 x hx st.feedback (by simp)
    exact ⟨e, rest ++ [entryOf pkt], by simp [he], hfe⟩
  | false =>
    rw [buildStep_refuse fits snd med st pkt hf, addReceived_accept fits _ _ _ (hfresh _ _ _ _ _)]
    rw [List.chain'_append]
    refine ⟨h, List.chain'_singleton _, ?_⟩
    intro x hx y hy
    simp only [List.head?_cons, Option.mem_def, Option.some.injEq] at hy
    subst hy
    rw [Option.mem_def, List.getLast?_append, List.getLast?_singleton] at hx
    have hx1 : st.feedback = x := by simpa [Option.or] using hx
    subst hx1
    exact ⟨entryOf pkt, [], by simp [newFeedback], hf⟩

theorem buildLoop_refused (fits : feedback → Nat → Int → Bool) (snd med : Nat)
    (hfresh : ∀ a b c s t, fits (newFeedback a b c) s t = true) (l : List pktInfo) :
    ∀ st : buildState, List.Chain' (startsWithRefused fits) (st.pkts ++ [st.feedback]) →
      List.Chain' (startsWithRefused fits)
        ((buildLoop fits snd med l st).pkts ++ [(buildLoop fits snd med l st).feedback]) := by
  induction l with
  | nil => intro st h; exact h
  | cons pkt rest ih =>
    intro st h
    rw [buildLoop]
    exact ih _ (buildStep_refused fits snd med hfresh st pkt h)

theorem groups_of_flatten_eq_map {α β : Type} (f : α → β) (ls : List (List β)) :
    ∀ l : List α, ls.flatten = l.map f →
      ∃ gs : List (List α), gs.flatten = l ∧ gs.map (List.map f) = ls := by
  induction ls with
  | nil =>
    intro l h
    refine ⟨[], ?_, rfl⟩
    have : l.map f = [] := by simpa using h.symm
    simpa using this.symm
  | cons x ls ih =>
    intro l h
    rw [List.flatten_cons] at h
    have hx : (l.take x.length).map f = x := by
      rw [List.map_take, ← h, List.take_left]
    have hrest : ls.flatten = (l.drop x.length).map f := by
      rw [List.map_drop, ← h, List.drop_left]
    obtain ⟨gs, hgs, hmap⟩ := ih _ hrest
    refine ⟨l.take x.length :: gs, ?_, ?_⟩
    · rw [List.flatten_cons, hgs, List.take_append_drop]
    · rw [List.map_cons, hx, hmap]

theorem indexRun_succ (i n : Nat) : indexRun i (n + 1) = indexRun i n ++ [(i + n) % 2 ^ 8] := by
  simp [indexRun, List.range_succ]

theorem buildStep_indices (fits : feedback → Nat → Int → Bool) (snd med i : Nat)
    (st : buildState) (pkt : pktInfo)
    (h : (st.pkts ++ [st.feedback]).map feedback.fbPktCnt = indexRun i (st.pkts.length + 1) ∧
      st.fbPktCnt = (i + st.pkts.length + 1) % 2 ^ 8) :
    ((buildStep fits snd med st pkt).pkts ++ [(buildStep fits snd med st pkt).feedback]).map
        feedback.fbPktCnt = indexRun i ((buildStep fits snd med st pkt).pkts.length + 1) ∧
      (buildStep fits snd med st pkt).fbPktCnt
        = (i + (buildStep fits snd med st pkt).pkts.length + 1) % 2 ^ 8 := by
  cases hf : fits st.feedback (entryOf pkt).1 (entryOf pkt).2 with
  | true =>
    rw [buildStep_accept fits snd med st pkt hf]
    simpa using h
  | false =>
    rw [buildStep_refuse fits snd med st pkt hf]
    obtain ⟨h1, h2⟩ := h
    constructor
    · simp only [List.length_append, List.length_singleton]
      rw [indexRun_succ, ← h1]
      simp [addReceived_fbPktCnt, newFeedback, h2, Nat.add_assoc]
    · simp only [List.length_append, List.length_singleton, h2]
      omega

theorem buildLoop_indices (fits : feedback → Nat → Int → Bool) (snd med i : Nat)
    (l : List pktInfo) :
    ∀ st : buildState,
      ((st.pkts ++ [st.feedback]).map feedback.fbPktCnt = indexRun i (st.pkts.length + 1) ∧
        st.fbPktCnt = (i + st.pkts.length + 1) % 2 ^ 8) →
      (((buildLoop fits snd med l st).pkts ++ [(buildLoop fits snd med l st).feedback]).map
          feedback.fbPktCnt = indexRun i ((buildLoop fits snd med l st).pkts.length + 1) ∧
        (buildLoop fits snd med l st).fbPktCnt
          = (i + (buildLoop fits snd med l st).pkts.length + 1) % 2 ^ 8) := by
  induction l with
  | nil => intro st h; exact h
  | cons pkt rest ih =>
    intro st h
    rw [buildLoop]
    exact ih _ (buildStep_indices fits snd med i st pkt h)

theorem buildLoop_length (fits : feedback → Nat → Int → Bool) (snd med : Nat)
    (l : List pktInfo) :
    ∀ st : buildState, (buildLoop fits snd med l st).pkts.length
      = st.pkts.length + failedFirstAdds fits snd med l st := by
  induction l with
  | nil => intro st; simp [buildLoop, failedFirstAdds]
  | cons pkt rest ih =>
    intro st
    rw [buildLoop, ih, failedFirstAdds]
    cases hf : fits st.feedback (entryOf pkt).1 (entryOf pkt).2 with
    | true =>
      rw [buildStep_accept fits snd med st pkt hf]
      simp only [entryOf] at hf
      rw [addReceived_accept fits _ _ _ hf]
      simp
    | false =>
      rw [buildStep_refuse fits snd med st pkt hf]
      simp only [entryOf] at hf
      rw [addReceived_refuse fits _ _ _ hf]
      simp only [List.length_append, List.length_singleton, if_true]
      omega

/-! ## Lemmas on runs of `Record` -/

theorem insertSorted_append_of_all_lt (list : List pktInfo) (e : pktInfo)
    (h : ∀ x ∈ list, x.sequenceNumber < e.sequenceNumber) :
    insertSorted list e = some (list ++ [e]) := by
  rw [insertSorted_eq]
  cases hl : list.reverse with
  | nil =>
    have : list = [] := by simpa using hl
    subst this
    simp [scanInsert]
  | cons x xs =>
    have hx : x ∈ list := by
      rw [← List.mem_reverse, hl]; exact List.mem_cons_self _ _
    have hlist : list = xs.reverse ++ [x] := by
      rw [← List.reverse_reverse list, hl]; simp
    rw [scanInsert, if_pos (h x hx), hlist]
    simp

theorem wrapsAfter_le (ss : List Nat) : ∀ w p : Nat, w ≤ wrapsAfter w p ss := by
  induction ss with
  | nil => intro w p; exact le_refl _
  | cons s ss ih =>
    intro w p
    rw [wrapsAfter]
    exact le_trans (Nat.le_add_right _ _) (ih _ _)

theorem or_low16 (w s : Nat) (hs : s < 65536) : (65536 * w) ||| s = w * 65536 + s := by
  have := Nat.mul_add_lt_is_or (i := 16) (b := s) (by simpa using hs) w
  rw [Nat.mul_comm w]
  simpa using this.symm

theorem Record_advancing (r : recorderOld) (c : RecordCall) (w : Nat)
    (hcyc : r.cycles = 65536 * w) (hlast : r.lastSequenceNumber < 65536)
    (hs : c.sequenceNumber < 65536)
    (hmax : ∀ x ∈ r.receivedPackets, x.sequenceNumber ≤ w * 65536 + r.lastSequenceNumber)
    (hstep : advances r.lastSequenceNumber c.sequenceNumber)
    (hw : w + (if c.sequenceNumber < r.lastSequenceNumber then 1 else 0) < 65536) :
    Record r c.mediaSSRC c.sequenceNumber c.arrivalTime = some
      { receivedPackets := r.receivedPackets ++
          [⟨(w + if c.sequenceNumber < r.lastSequenceNumber then 1 else 0) * 65536
            + c.sequenceNumber, c.arrivalTime⟩]
        cycles := 65536 * (w + if c.sequenceNumber < r.lastSequenceNumber then 1 else 0)
        lastSequenceNumber := c.sequenceNumber
        senderSSRC := r.senderSSRC
        mediaSSRC := c.mediaSSRC
        fbPktCnt := r.fbPktCnt } := by
  obtain ⟨⟨hpos, -⟩, hcross⟩ := hstep
  have hne : c.sequenceNumber ≠ r.lastSequenceNumber := by
    intro h
    rw [h] at hpos
    omega
  have hc : 65536 * (w + if c.sequenceNumber < r.lastSequenceNumber then 1 else 0)
      = if c.sequenceNumber < 0x0fff ∧ (r.lastSequenceNumber &&& 0xffff) > 0xf000
        then (r.cycles + 0x10000) % 2 ^ 32 else r.cycles := by
    rw [and_mask16 (by simpa using hlast), hcyc]
    by_cases hlt : c.sequenceNumber < r.lastSequenceNumber
    · rw [if_pos hlt] at hw ⊢
      rw [if_pos ⟨(hcross hlt).2, (hcross hlt).1⟩]
      omega
    · rw [if_neg hlt]
      rw [if_neg (by omega)]
      rfl
  have hins := insertSorted_append_of_all_lt r.receivedPackets
    ⟨(w + if c.sequenceNumber < r.lastSequenceNumber then 1 else 0) * 65536
      + c.sequenceNumber, c.arrivalTime⟩ (by
        intro x hx
        have := hmax x hx
        simp only
        split_ifs with hlt
        · omega
        · omega)
  rw [insertSorted_eq] at hins
  rw [Record_eq r c.mediaSSRC c.sequenceNumber c.arrivalTime _ hc, or_low16 _ _ hs,
    Option.some.inj hins]

theorem run_advancing_from (cs : List RecordCall) :
    ∀ (r : recorderOld) (w : Nat), r.cycles = 65536 * w → r.lastSequenceNumber < 65536 →
      (∀ x ∈ r.receivedPackets, x.sequenceNumber ≤ w * 65536 + r.lastSequenceNumber) →
      (∀ c ∈ cs, c.sequenceNumber < 65536) →
      List.Chain advances r.lastSequenceNumber (cs.map RecordCall.sequenceNumber) →
      wrapsAfter w r.lastSequenceNumber (cs.map RecordCall.sequenceNumber) < 65536 →
      ∃ r1, recordAll r cs = some r1 ∧
        r1.receivedPackets = r.receivedPackets ++ unwrapped w r.lastSequenceNumber cs ∧
        r1.cycles = 65536 * wrapsAfter w r.lastSequenceNumber
          (cs.map RecordCall.sequenceNumber) := by
  induction cs with
  | nil =>
    intro r w hcyc _ _ _ _ _
    exact ⟨r, rfl, by simp [unwrapped], by simpa [wrapsAfter] using hcyc⟩
  | cons c cs ih =>
    intro r w hcyc hlast hmax h16 hchain hw
    rw [List.map_cons, List.chain_cons] at hchain
    rw [List.map_cons, wrapsAfter] at hw
    have hs : c.sequenceNumber < 65536 := h16 c (List.mem_cons_self _ _)
    have hw1 := lt_of_le_of_lt (wrapsAfter_le _ _ _) hw
    have hrec := Record_advancing r c w hcyc hlast hs hmax hchain.1 hw1
    obtain ⟨r1, hrun, hled, hcyc1⟩ := ih
      { receivedPackets := r.receivedPackets ++
          [⟨(w + if c.sequenceNumber < r.lastSequenceNumber then 1 else 0) * 65536
            + c.sequenceNumber, c.arrivalTime⟩]
        cycles := 65536 * (w + if c.sequenceNumber < r.lastSequenceNumber then 1 else 0)
        lastSequenceNumber := c.sequenceNumber
        senderSSRC := r.senderSSRC
        mediaSSRC := c.mediaSSRC
        fbPktCnt := r.fbPktCnt }
      (w + if c.sequenceNumber < r.lastSequenceNumber then 1 else 0) rfl hs (by
        intro x hx
        simp only [List.mem_append, List.mem_singleton] at hx
        rcases hx with hx | hx
        · have := hmax x hx
          have hpos := hchain.1.1.1
          show x.sequenceNumber ≤ (w + if c.sequenceNumber < r.lastSequenceNumber then 1 else 0)
            * 65536 + c.sequenceNumber
          split_ifs with hlt
          · omega
          · omega
        · rw [hx])
      (fun c1 hc1 => h16 c1 (List.mem_cons_of_mem _ hc1)) hchain.2 hw
    refine ⟨r1, ?_, ?_, ?_⟩
    · rw [recordAll, hrec]
      exact hrun
    · rw [hled, unwrapped]
      simp
    · rw [hcyc1, List.map_cons, wrapsAfter]

theorem recordAll_ascending (cs : List RecordCall) :
    ∀ r r1 : recorderOld, Ascending r.receivedPackets → recordAll r cs = some r1 →
      Ascending r1.receivedPackets := by
  induction cs with
  | nil =>
    intro r r1 hasc h
    simp only [recordAll] at h
    cases h
    exact hasc
  | cons c cs ih =>
    intro r r1 hasc h
    simp only [recordAll] at h
    cases hs : Record r c.mediaSSRC c.sequenceNumber c.arrivalTime with
    | none => simp [hs] at h
    | some r2 =>
      rw [hs] at h
      exact ih r2 r1 (Record_ascending hasc hs) h

theorem fresh_run_advancing (senderSSRC : Nat) (cs : List RecordCall)
    (h16 : ∀ c ∈ cs, c.sequenceNumber < 65536)
    (hchain : List.Chain' advances (cs.map RecordCall.sequenceNumber))
    (hwraps : wrapsAfter 0 0 (cs.map RecordCall.sequenceNumber) < 65536) :
    ∃ r, recordAll (newRecorderOld senderSSRC) cs = some r ∧
      r.receivedPackets = unwrapped 0 0 cs ∧
      r.cycles = wrapsAfter 0 0 (cs.map RecordCall.sequenceNumber) * 65536 := by
  cases cs with
  | nil => exact ⟨_, rfl, rfl, rfl⟩
  | cons c cs =>
    have hs : c.sequenceNumber < 65536 := h16 c (List.mem_cons_self _ _)
    have hrec := Record_eq (newRecorderOld senderSSRC) c.mediaSSRC c.sequenceNumber
      c.arrivalTime 0 (by simp [newRecorderOld])
    have hch : List.Chain advances c.sequenceNumber (cs.map RecordCall.sequenceNumber) :=
      hchain
    have hw0 : wrapsAfter 0 c.sequenceNumber (cs.map RecordCall.sequenceNumber) < 65536 := by
      simpa [wrapsAfter] using hwraps
    obtain ⟨r1, hrun, hled, hcyc⟩ := run_advancing_from cs
      { receivedPackets := [⟨c.sequenceNumber, c.arrivalTime⟩]
        cycles := 0
        lastSequenceNumber := c.sequenceNumber
        senderSSRC := senderSSRC
        mediaSSRC := c.mediaSSRC
        fbPktCnt := 0 } 0 rfl hs (by simp) (fun c1 hc1 => h16 c1 (List.mem_cons_of_mem _ hc1))
      hch hw0
    refine ⟨r1, ?_, ?_, ?_⟩
    · rw [recordAll, hrec]
      simpa [newRecorderOld, scanInsert] using hrun
    · rw [hled]
      simp [unwrapped]
    · rw [hcyc, Nat.mul_comm]
      simp [wrapsAfter]

theorem wrapsAfter_take_le (ss : List Nat) :
    ∀ w p n : Nat, wrapsAfter w p (ss.take n) ≤ wrapsAfter w p ss := by
  induction ss with
  | nil => intro w p n; simp
  | cons s ss ih =>
    intro w p n
    cases n with
    | zero => exact wrapsAfter_le _ _ _
    | succ n =>
      rw [List.take_succ_cons, wrapsAfter, wrapsAfter]
      exact ih _ _ _

theorem unwrapped_entry (cs : List RecordCall) :
    ∀ (w p i : Nat) (hi : i < cs.length), (unwrapped w p cs)[i]? = some
      ⟨wrapsAfter w p ((cs.take (i + 1)).map RecordCall.sequenceNumber) * 65536
        + cs[i].sequenceNumber, cs[i].arrivalTime⟩ := by
  induction cs with
  | nil => intro w p i hi; simp at hi
  | cons c cs ih =>
    intro w p i hi
    cases i with
    | zero => simp [unwrapped, wrapsAfter]
    | succ i =>
      rw [unwrapped, List.getElem?_cons_succ, ih _ _ i (by simpa using hi)]
      simp [wrapsAfter]

theorem unwrapped_arrivalTime (cs : List RecordCall) :
    ∀ w p : Nat, (unwrapped w p cs).map pktInfo.arrivalTime
      = cs.map RecordCall.arrivalTime := by
  induction cs with
  | nil => intro w p; rfl
  | cons c cs ih => intro w p; simp [unwrapped, ih]

/-! ## Lemmas on reports without a failed add -/

theorem buildLoop_no_failure (fits : feedback → Nat → Int → Bool) (snd med : Nat)
    (l : List pktInfo) :
    ∀ st : buildState, failedFirstAdds fits snd med l st = 0 →
      buildLoop fits snd med l st = ⟨st.fbPktCnt, st.pkts,
        { st.feedback with received := st.feedback.received ++ l.map entryOf }⟩ := by
  induction l with
  | nil => intro st _; simp [buildLoop]
  | cons pkt rest ih =>
    intro st h
    rw [failedFirstAdds] at h
    cases hf : fits st.feedback (entryOf pkt).1 (entryOf pkt).2 with
    | true =>
      have hstep := buildStep_accept fits snd med st pkt hf
      rw [hstep] at h
      rw [buildLoop, hstep, ih _ (by omega)]
      simp
    | false =>
      simp only [entryOf] at hf
      rw [addReceived_refuse fits _ _ _ hf] at h
      simp at h

/-! ## Lemmas on the SSRC fields -/

theorem addReceived_ssrc (fits : feedback → Nat → Int → Bool) (f : feedback) (s : Nat)
    (t : Int) : (f.addReceived fits s t).1.senderSSRC = f.senderSSRC ∧
      (f.addReceived fits s t).1.mediaSSRC = f.mediaSSRC := by
  unfold feedback.addReceived
  split_ifs <;> exact ⟨rfl, rfl⟩

theorem buildStep_ssrc (fits : feedback → Nat → Int → Bool) (snd med : Nat)
    (st : buildState) (pkt : pktInfo)
    (h : ∀ f ∈ st.pkts ++ [st.feedback], f.senderSSRC = snd ∧ f.mediaSSRC = med) :
    ∀ f ∈ (buildStep fits snd med st pkt).pkts ++ [(buildStep fits snd med st pkt).feedback],
      f.senderSSRC = snd ∧ f.mediaSSRC = med := by
  cases hf : fits st.feedback (entryOf pkt).1 (entryOf pkt).2 with
  | true =>
    rw [buildStep_accept fits snd med st pkt hf]
    intro f hfm
    simp only [List.mem_append, List.mem_singleton] at hfm
    rcases hfm with hfm | hfm
    · exact h f (List.mem_append_left _ hfm)
    · rw [hfm]
      exact h st.feedback (by simp)
  | false =>
    rw [buildStep_refuse fits snd med st pkt hf]
    intro f hfm
    simp only [List.mem_append, List.mem_singleton] at hfm
    rcases hfm with hfm | hfm
    · exact h f (by simpa using hfm)
    · rw [hfm]
      have := addReceived_ssrc fits (newFeedback snd med st.fbPktCnt) (entryOf pkt).1
        (entryOf pkt).2
      simpa [newFeedback] using this

theorem buildLoop_ssrc (fits : feedback → Nat → Int → Bool) (snd med : Nat)
    (l : List pktInfo) :
    ∀ st : buildState, (∀ f ∈ st.pkts ++ [st.feedback], f.senderSSRC = snd ∧ f.mediaSSRC = med) →
      ∀ f ∈ (buildLoop fits snd med l st).pkts ++ [(buildLoop fits snd med l st).feedback],
        f.senderSSRC = snd ∧ f.mediaSSRC = med := by
  induction l with
  | nil => intro st h; exact h
  | cons pkt rest ih =>
    intro st h
    rw [buildLoop]
    exact ih _ (buildStep_ssrc fits snd med st pkt h)

theorem BuildFeedbackPacket_ssrc (fits : feedback → Nat → Int → Bool) (r : recorderOld) :
    ∃ r1 out, BuildFeedbackPacket fits r = some (r1, out) ∧
      r1.senderSSRC = r.senderSSRC ∧ r1.mediaSSRC = r.mediaSSRC ∧
      r1.cycles = r.cycles ∧ r1.lastSequenceNumber = r.lastSequenceNumber ∧
      ∀ f ∈ out, f.senderSSRC = r.senderSSRC ∧ f.mediaSSRC = r.mediaSSRC := by
  by_cases hlen : r.receivedPackets.length < 2
  · exact ⟨r, [], BuildFeedbackPacket_small fits r hlen, rfl, rfl, rfl, rfl, by simp⟩
  · obtain ⟨first, rest, hl⟩ := ledger_head_of_two_le (by omega : 2 ≤ r.receivedPackets.length)
    refine ⟨_, _, BuildFeedbackPacket_large fits r first rest hl (by omega) _ rfl,
      rfl, rfl, rfl, rfl, ?_⟩
    exact buildLoop_ssrc fits _ _ _ _ (by simp [buildInit, newFeedback, feedback.setBase])

theorem run_ssrc (fits : feedback → Nat → Int → Bool) (calls : List Call) :
    ∀ r r1 : recorderOld, run fits r calls = some r1 →
      r1.senderSSRC = r.senderSSRC ∧ r1.mediaSSRC = lastMedia r.mediaSSRC calls := by
  induction calls with
  | nil =>
    intro r r1 h
    simp only [run] at h
    cases h
    exact ⟨rfl, rfl⟩
  | cons c cs ih =>
    intro r r1 h
    simp only [run] at h
    cases hs : step fits r c with
    | none => simp [hs] at h
    | some r2 =>
      rw [hs] at h
      obtain ⟨h1, h2⟩ := ih r2 r1 h
      cases c with
      | record m s t =>
        simp only [step] at hs
        rw [Record_eq r m s t _ rfl] at hs
        cases hs
        exact ⟨h1, h2⟩
      | build =>
        simp only [step] at hs
        obtain ⟨r3, out, hb, hs1, hs2, -, -, -⟩ := BuildFeedbackPacket_ssrc fits r
        rw [hb] at hs
        cases hs
        rw [lastMedia, ← hs2, ← hs1]
        exact ⟨h1, h2⟩

/-! ## Lemmas on `cycles` -/

theorem Record_cycles_multiple {r r1 : recorderOld} {m s : Nat} {t : Int}
    (hc : r.cycles % 0x10000 = 0 ∧ r.cycles < 2 ^ 32) (h : Record r m s t = some r1) :
    r1.cycles % 0x10000 = 0 ∧ r1.cycles < 2 ^ 32 := by
  rw [Record_eq r m s t _ rfl] at h
  cases h
  simp only
  split_ifs
  · omega
  · exact hc

theorem step_cycles_multiple (fits : feedback → Nat → Int → Bool) {r r1 : recorderOld}
    {c : Call} (hc : r.cycles % 0x10000 = 0 ∧ r.cycles < 2 ^ 32)
    (h : step fits r c = some r1) : r1.cycles % 0x10000 = 0 ∧ r1.cycles < 2 ^ 32 := by
  cases c with
  | record m s t => exact Record_cycles_multiple hc h
  | build =>
    simp only [step] at h
    obtain ⟨r2, out, hb, -, -, hcyc, -, -⟩ := BuildFeedbackPacket_ssrc fits r
    rw [hb] at h
    cases h
    rw [hcyc]
    exact hc

theorem run_cycles_multiple (fits : feedback → Nat → Int → Bool) (calls : List Call) :
    ∀ r r1 : recorderOld, (r.cycles % 0x10000 = 0 ∧ r.cycles < 2 ^ 32) →
      run fits r calls = some r1 → r1.cycles % 0x10000 = 0 ∧ r1.cycles < 2 ^ 32 := by
  induction calls with
  | nil =>
    intro r r1 hc h
    simp only [run] at h
    cases h
    exact hc
  | cons c cs ih =>
    intro r r1 hc h
    simp only [run] at h
    cases hs : step fits r c with
    | none => simp [hs] at h
    | some r2 =>
      rw [hs] at h
      exact ih r2 r1 (step_cycles_multiple fits hc hs) h

theorem reachable_cycles (fits : feedback → Nat → Int → Bool) {r : recorderOld}
    (h : Reachable fits r) : r.cycles % 0x10000 = 0 ∧ r.cycles < 2 ^ 32 := by
  obtain ⟨senderSSRC, calls, -, -, hrun⟩ := h
  exact run_cycles_multiple fits calls _ r (by simp [newRecorderOld]) hrun

theorem or_seq16 {c s : Nat} (hc : c % 0x10000 = 0) (hs : s < 2 ^ 16) :
    c ||| s = c + s ∧ uint16 ((c ||| s) &&& 0xffff) = s ∧ (c ||| s) >>> 16 = c >>> 16 := by
  have hcw : c = 65536 * (c / 65536) := by omega
  have hor : c ||| s = c + s := by
    have := or_low16 (c / 65536) s (by simpa using hs)
    rw [← hcw] at this
    omega
  refine ⟨hor, ?_, ?_⟩
  · rw [hor]
    have : (c + s) &&& 0xffff = (c + s) % 2 ^ 16 := Nat.and_pow_two_sub_one_eq_mod _ 16
    rw [this]
    simp only [uint16]
    omega
  · rw [hor, Nat.shiftRight_eq_div_pow, Nat.shiftRight_eq_div_pow]
    omega

/-! ## Lemmas on call sequences -/

theorem run_append (fits : feedback → Nat → Int → Bool) (cs1 cs2 : List Call) :
    ∀ r : recorderOld, run fits r (cs1 ++ cs2) = (run fits r cs1).bind (fun r1 => run fits r1 cs2) := by
  induction cs1 with
  | nil => intro r; rfl
  | cons c cs ih =>
    intro r
    simp only [List.cons_append, run]
    cases step fits r c with
    | none => rfl
    | some r1 => exact ih r1

theorem run_cons_of_step (fits : feedback → Nat → Int → Bool) {r r1 : recorderOld} {c : Call}
    (cs : List Call) (h : step fits r c = some r1) : run fits r (c :: cs) = run fits r1 cs := by
  rw [run, h]

theorem run_last_lt (fits : feedback → Nat → Int → Bool) (calls : List Call) :
    ∀ r r1 : recorderOld, (∀ c ∈ calls, Call.wf c) → r.lastSequenceNumber < 2 ^ 16 →
      run fits r calls = some r1 → r1.lastSequenceNumber < 2 ^ 16 := by
  induction calls with
  | nil =>
    intro r r1 _ hl h
    simp only [run] at h
    cases h
    exact hl
  | cons c cs ih =>
    intro r r1 hwf hl h
    simp only [run] at h
    cases hs : step fits r c with
    | none => simp [hs] at h
    | some r2 =>
      rw [hs] at h
      refine ih r2 r1 (fun c1 hc1 => hwf c1 (List.mem_cons_of_mem _ hc1)) ?_ h
      cases c with
      | record m s t =>
        simp only [step] at hs
        rw [Record_eq r m s t _ rfl] at hs
        cases hs
        exact (hwf _ (List.mem_cons_self _ _)).2.1
      | build =>
        simp only [step] at hs
        obtain ⟨r3, out, hb, -, -, -, hlast, -⟩ := BuildFeedbackPacket_ssrc fits r
        rw [hb] at hs
        cases hs
        rw [hlast]
        exact hl

theorem reachable_last_lt (fits : feedback → Nat → Int → Bool) {r : recorderOld}
    (h : Reachable fits r) : r.lastSequenceNumber < 2 ^ 16 := by
  obtain ⟨senderSSRC, calls, -, hwf, hrun⟩ := h
  exact run_last_lt fits calls _ r hwf (by simp [newRecorderOld]) hrun

theorem failedFirstAdds_accepting (snd med : Nat) (l : List pktInfo) :
    ∀ st : buildState, failedFirstAdds (fun _ _ _ => true) snd med l st = 0 := by
  induction l with
  | nil => intro st; rfl
  | cons pkt rest ih =>
    intro st
    rw [failedFirstAdds, ih]
    simp [feedback.addReceived]

theorem run_wrapRound (snd c cnt : Nat) (hc : c % 0x10000 = 0) (hlt : c + 0x10000 < 2 ^ 32) :
    run (fun _ _ _ => true) ⟨[], c, 0, snd, 0, cnt⟩ wrapRound
      = some ⟨[], c + 0x10000, 0, snd, 0, (cnt + 1) % 2 ^ 8⟩ := by
  have hk1 : c ||| 0xffff = c + 0xffff := (or_seq16 hc (by norm_num)).1
  have hk2 : (c + 0x10000) ||| 0 = c + 0x10000 := by simp
  have hm : (0xffff &&& 0xffff : Nat) = 0xffff := by decide
  have hmod : (c + 65536) % 4294967296 = c + 65536 := by omega
  have h1 : Record ⟨[], c, 0, snd, 0, cnt⟩ 0 0xffff 0
      = some ⟨[⟨c + 0xffff, 0⟩], c, 0xffff, snd, 0, cnt⟩ := by
    rw [Record_eq _ _ _ _ c (by simp)]
    simp [scanInsert, hk1]
  have h2 : Record ⟨[⟨c + 0xffff, 0⟩], c, 0xffff, snd, 0, cnt⟩ 0 0 0
      = some ⟨[⟨c + 0xffff, 0⟩, ⟨c + 0x10000, 0⟩], c + 0x10000, 0, snd, 0, cnt⟩ := by
    rw [Record_eq _ _ _ _ (c + 0x10000) (by simp [hm, hmod])]
    simp [scanInsert]
  have h3 : BuildFeedbackPacket (fun _ _ _ => true)
      ⟨[⟨c + 0xffff, 0⟩, ⟨c + 0x10000, 0⟩], c + 0x10000, 0, snd, 0, cnt⟩
      = some (⟨[], c + 0x10000, 0, snd, 0, (cnt + 1) % 2 ^ 8⟩,
          [⟨snd, 0, cnt, some (entryOf ⟨c + 0xffff, 0⟩),
            [entryOf ⟨c + 0xffff, 0⟩, entryOf ⟨c + 0x10000, 0⟩]⟩]) := by
    rw [BuildFeedbackPacket_large _ _ ⟨c + 0xffff, 0⟩ [⟨c + 0x10000, 0⟩] rfl (by simp) _ rfl,
      buildLoop_no_failure _ _ _ _ _ (failedFirstAdds_accepting _ _ _ _)]
    simp [buildInit, newFeedback, feedback.setBase, entryOf]
  have s3 : step (fun _ _ _ => true)
      ⟨[⟨c + 0xffff, 0⟩, ⟨c + 0x10000, 0⟩], c + 0x10000, 0, snd, 0, cnt⟩ Call.build
      = some ⟨[], c + 0x10000, 0, snd, 0, (cnt + 1) % 2 ^ 8⟩ := by
    rw [step, h3]
    rfl
  have s1 : step (fun _ _ _ => true) ⟨[], c, 0, snd, 0, cnt⟩ (Call.record 0 0xffff 0)
      = some ⟨[⟨c + 0xffff, 0⟩], c, 0xffff, snd, 0, cnt⟩ := h1
  have s2 : step (fun _ _ _ => true) ⟨[⟨c + 0xffff, 0⟩], c, 0xffff, snd, 0, cnt⟩
      (Call.record 0 0 0)
      = some ⟨[⟨c + 0xffff, 0⟩, ⟨c + 0x10000, 0⟩], c + 0x10000, 0, snd, 0, cnt⟩ := h2
  unfold wrapRound
  rw [run_cons_of_step _ _ s1, run_cons_of_step _ _ s2, run_cons_of_step _ _ s3]
  rfl

theorem run_wrapRounds (snd : Nat) (k : Nat) :
    ∀ c cnt : Nat, c % 0x10000 = 0 → c + 0x10000 * k < 2 ^ 32 → cnt < 2 ^ 8 →
      run (fun _ _ _ => true) ⟨[], c, 0, snd, 0, cnt⟩ (wrapRounds k)
        = some ⟨[], c + 0x10000 * k, 0, snd, 0, (cnt + k) % 2 ^ 8⟩ := by
  induction k with
  | zero =>
    intro c cnt _ _ hcnt
    simp [wrapRounds, run]
    omega
  | succ k ih =>
    intro c cnt hc hlt hcnt
    have hsplit : wrapRounds (k + 1) = wrapRound ++ wrapRounds k := by
      simp [wrapRounds, List.replicate_succ]
    rw [hsplit, run_append, run_wrapRound snd c cnt hc (by omega)]
    show run (fun _ _ _ => true) _ (wrapRounds k) = _
    rw [ih (c + 0x10000) ((cnt + 1) % 2 ^ 8) (by omega) (by omega) (Nat.mod_lt _ (by decide))]
    congr 2
    · omega
    · omega

theorem wrapRounds_wf (k : Nat) : ∀ c ∈ wrapRounds k, Call.wf c := by
  intro c hc
  simp only [wrapRounds, List.mem_flatten, List.mem_replicate] at hc
  obtain ⟨l, ⟨-, rfl⟩, hcl⟩ := hc
  simp only [wrapRound, List.mem_cons, List.mem_singleton, List.not_mem_nil, or_false] at hcl
  rcases hcl with rfl | rfl | rfl <;> simp [Call.wf]

/-! ## Lemmas on consecutive sequence numbers -/

theorem recordAll_append (cs1 cs2 : List RecordCall) :
    ∀ r : recorderOld, recordAll r (cs1 ++ cs2) = (recordAll r cs1).bind (fun r1 => recordAll r1 cs2) := by
  induction cs1 with
  | nil => intro r; rfl
  | cons c cs ih =>
    intro r
    simp only [List.cons_append, recordAll]
    cases Record r c.mediaSSRC c.sequenceNumber c.arrivalTime with
    | none => rfl
    | some r1 => exact ih r1

theorem consecutiveCalls_succ (m : Nat → Nat) (t : Nat → Int) (s0 k : Nat) :
    consecutiveCalls m t s0 (k + 1)
      = consecutiveCalls m t s0 k ++ [⟨m (k + 1), (s0 + (k + 1)) % 65536, t (k + 1)⟩] := by
  simp [consecutiveCalls, List.range_succ]

theorem recordAll_consecutive (snd : Nat) (m : Nat → Nat) (t : Nat → Int) (s0 : Nat)
    (hs0 : s0 < 65536) (k : Nat) :
    s0 + k < 2 ^ 32 →
      recordAll (newRecorderOld snd) (consecutiveCalls m t s0 k) = some
        { receivedPackets := (List.range (k + 1)).map (fun j => ⟨s0 + j, t j⟩)
          cycles := 65536 * ((s0 + k) / 65536)
          lastSequenceNumber := (s0 + k) % 65536
          senderSSRC := snd
          mediaSSRC := m k
          fbPktCnt := 0 } := by
  induction k with
  | zero =>
    intro _
    have h0 : (0 ||| s0 : Nat) = s0 := by simp
    have hmod : s0 % 65536 = s0 := Nat.mod_eq_of_lt hs0
    have hdiv : s0 / 65536 = 0 := by omega
    simp only [consecutiveCalls, recordAll]
    have hl : List.range (0 + 1) = [0] := by decide
    rw [hl]
    simp only [List.map_cons, List.map_nil, recordAll, Nat.add_zero]
    rw [Record_eq _ _ _ _ 0 (by simp [newRecorderOld])]
    simp [newRecorderOld, scanInsert, hmod, hdiv]
  | succ k ih =>
    intro hlt
    rw [consecutiveCalls_succ, recordAll_append, ih (by omega)]
    show recordAll _ [_] = _
    rw [recordAll]
    have hrec := Record_advancing
      { receivedPackets := (List.range (k + 1)).map (fun j => (⟨s0 + j, t j⟩ : pktInfo))
        cycles := 65536 * ((s0 + k) / 65536)
        lastSequenceNumber := (s0 + k) % 65536
        senderSSRC := snd
        mediaSSRC := m k
        fbPktCnt := 0 }
      ⟨m (k + 1), (s0 + (k + 1)) % 65536, t (k + 1)⟩ ((s0 + k) / 65536) rfl
      (Nat.mod_lt _ (by decide)) (Nat.mod_lt _ (by decide))
      (by
        intro x hx
        simp only [List.mem_map, List.mem_range] at hx
        obtain ⟨j, hj, rfl⟩ := hx
        show s0 + j ≤ (s0 + k) / 65536 * 65536 + (s0 + k) % 65536
        omega)
      (by
        show advances ((s0 + k) % 65536) ((s0 + (k + 1)) % 65536)
        unfold advances ahead
        omega)
      (by
        show (s0 + k) / 65536 + (if (s0 + (k + 1)) % 65536 < (s0 + k) % 65536 then 1 else 0)
          < 65536
        split_ifs <;> omega)
    rw [hrec]
    simp only [recordAll]
    have hkey : ((s0 + k) / 65536 + if (s0 + (k + 1)) % 65536 < (s0 + k) % 65536 then 1 else 0)
        * 65536 + (s0 + (k + 1)) % 65536 = s0 + (k + 1) := by
      split_ifs <;> omega
    have hcyc : 65536 * ((s0 + k) / 65536
        + if (s0 + (k + 1)) % 65536 < (s0 + k) % 65536 then 1 else 0)
        = 65536 * ((s0 + (k + 1)) / 65536) := by
      split_ifs <;> omega
    simp only [hkey, hcyc]
    rw [List.range_succ (k + 1)]
    simp

/-! ## Lemmas on the ledger as an ordered map -/

theorem mem_scanInsert_iff {xs : List pktInfo} (e y : pktInfo)
    (h : xs.Pairwise (fun a b => b.sequenceNumber < a.sequenceNumber)) :
    y ∈ scanInsert xs e ↔ y = e ∨ (y ∈ xs ∧ y.sequenceNumber ≠ e.sequenceNumber) := by
  induction xs with
  | nil => simp [scanInsert]
  | cons x xs ih =>
    rw [List.pairwise_cons] at h
    unfold scanInsert
    split_ifs with h1 h2
    · constructor
      · intro hy
        rcases List.mem_cons.mp hy with hy | hy
        · exact Or.inl hy
        · refine Or.inr ⟨hy, ?_⟩
          rcases List.mem_cons.mp hy with hy | hy
          · rw [hy]; omega
          · have := h.1 y hy
            omega
      · rintro (hy | ⟨hy, -⟩)
        · rw [hy]; exact List.mem_cons_self _ _
        · exact List.mem_cons_of_mem _ hy
    · constructor
      · intro hy
        rcases List.mem_cons.mp hy with hy | hy
        · exact Or.inl hy
        · have := h.1 y hy
          exact Or.inr ⟨List.mem_cons_of_mem _ hy, by omega⟩
      · rintro (hy | ⟨hy, hne⟩)
        · rw [hy]; exact List.mem_cons_self _ _
        · rcases List.mem_cons.mp hy with hy | hy
          · rw [hy] at hne
            exact absurd h2 hne
          · exact List.mem_cons_of_mem _ hy
    · rw [List.mem_cons, ih h.2]
      constructor
      · rintro (hy | hy | ⟨hy, hne⟩)
        · rw [hy]
          exact Or.inr ⟨List.mem_cons_self _ _, h2⟩
        · exact Or.inl hy
        · exact Or.inr ⟨List.mem_cons_of_mem _ hy, hne⟩
      · rintro (hy | ⟨hy, hne⟩)
        · exact Or.inr (Or.inl hy)
        · rcases List.mem_cons.mp hy with hy | hy
          · exact Or.inl hy
          · exact Or.inr (Or.inr ⟨hy, hne⟩)

theorem mem_insertSorted_iff {list list1 : List pktInfo} (e y : pktInfo)
    (hasc : Ascending list) (h : insertSorted list e = some list1) :
    y ∈ list1 ↔ y = e ∨ (y ∈ list ∧ y.sequenceNumber ≠ e.sequenceNumber) := by
  rw [insertSorted_eq] at h
  cases h
  have hdesc : list.reverse.Pairwise (fun a b => b.sequenceNumber < a.sequenceNumber) := by
    rw [List.pairwise_reverse]
    exact hasc
  rw [List.mem_reverse, mem_scanInsert_iff e y hdesc, List.mem_reverse]

theorem insertAll_spec (es : List pktInfo) :
    ∀ l : List pktInfo, Ascending l →
      ∃ l1, insertAll l es = some l1 ∧ Ascending l1 ∧
        ∀ x : pktInfo, x ∈ l1 ↔ (lastWrite es x.sequenceNumber = some x.arrivalTime ∨
          (lastWrite es x.sequenceNumber = none ∧ x ∈ l)) := by
  induction es with
  | nil =>
    intro l hasc
    exact ⟨l, rfl, hasc, fun x => by simp [lastWrite]⟩
  | cons e es ih =>
    intro l hasc
    have hins := insertSorted_eq l e
    obtain ⟨l1, hrun, hasc1, hmem⟩ := ih _ (insertSorted_ascending hasc hins)
    refine ⟨l1, by rw [insertAll, hins]; exact hrun, hasc1, ?_⟩
    intro x
    rw [hmem x, mem_insertSorted_iff e x hasc hins, lastWrite]
    cases hlw : lastWrite es x.sequenceNumber with
    | some t => simp
    | none =>
      simp only [false_or, true_and, reduceCtorEq]
      by_cases hk : e.sequenceNumber = x.sequenceNumber
      · rw [if_pos hk]
        constructor
        · rintro (hx | ⟨-, hne⟩)
          · rw [hx]; exact Or.inl rfl
          · exact absurd hk.symm hne
        · rintro (hx | ⟨hx, -⟩)
          · left
            cases x; cases e
            simp only [Option.some.injEq] at hx
            simp only at hk
            rw [hk, hx]
          · simp at hx
      · rw [if_neg hk]
        constructor
        · rintro (hx | ⟨hx, -⟩)
          · rw [hx] at hk
            exact absurd rfl hk
          · exact Or.inr ⟨rfl, hx⟩
        · rintro (hx | ⟨-, hx⟩)
          · simp at hx
          · exact Or.inr ⟨hx, fun h => hk h.symm⟩

theorem lastWrite_mem {es : List pktInfo} {k : Nat} {t : Int} (h : lastWrite es k = some t) :
    (⟨k, t⟩ : pktInfo) ∈ es := by
  induction es with
  | nil => simp [lastWrite] at h
  | cons e es ih =>
    rw [lastWrite] at h
    cases hlw : lastWrite es k with
    | some t1 =>
      rw [hlw] at h
      simp only [Option.some.injEq] at h
      subst h
      exact List.mem_cons_of_mem _ (ih hlw)
    | none =>
      rw [hlw] at h
      simp only at h
      split_ifs at h with hk
      simp only [Option.some.injEq] at h
      cases e
      simp only at hk h
      rw [← hk, ← h]
      exact List.mem_cons_self _ _

theorem lastWrite_isSome {es : List pktInfo} {k : Nat}
    (h : k ∈ es.map pktInfo.sequenceNumber) : ∃ t, lastWrite es k = some t := by
  induction es with
  | nil => simp at h
  | cons e es ih =>
    rw [lastWrite]
    cases hlw : lastWrite es k with
    | some t1 => exact ⟨t1, rfl⟩
    | none =>
      simp only [List.map_cons, List.mem_cons] at h
      rcases h with h | h
      · exact ⟨e.arrivalTime, by simp [h]⟩
      · obtain ⟨t, ht⟩ := ih h
        rw [hlw] at ht
        cases ht

theorem mem_orderedMapList (es : List pktInfo) (x : pktInfo) :
    x ∈ orderedMapList es ↔ lastWrite es x.sequenceNumber = some x.arrivalTime := by
  unfold orderedMapList
  rw [List.mem_filterMap]
  constructor
  · rintro ⟨k, -, hk⟩
    cases hlw : lastWrite es k with
    | none => rw [hlw] at hk; simp at hk
    | some t =>
      rw [hlw] at hk
      simp only [Option.map_some', Option.some.injEq] at hk
      rw [← hk]
      exact hlw
  · intro h
    refine ⟨x.sequenceNumber, ?_, by rw [h]; rfl⟩
    rw [(List.perm_insertionSort _ _).mem_iff, List.mem_dedup]
    exact List.mem_map_of_mem _ (lastWrite_mem h)

theorem orderedMapList_ascending (es : List pktInfo) : Ascending (orderedMapList es) := by
  unfold Ascending orderedMapList
  rw [List.pairwise_filterMap]
  have hs : List.Sorted (· < ·)
      (List.insertionSort (· ≤ ·) (es.map pktInfo.sequenceNumber).dedup) :=
    (List.sorted_insertionSort (· ≤ ·) _).lt_of_le
      ((List.perm_insertionSort _ _).nodup_iff.mpr (List.nodup_dedup _))
  refine List.Pairwise.imp ?_ hs
  intro a b hab x hx y hy
  cases hla : lastWrite es a with
  | none => rw [hla] at hx; simp at hx
  | some ta =>
    cases hlb : lastWrite es b with
    | none => rw [hlb] at hy; simp at hy
    | some tb =>
      rw [hla] at hx
      rw [hlb] at hy
      simp only [Option.map_some', Option.mem_def, Option.some.injEq] at hx hy
      rw [← hx, ← hy]
      exact hab

theorem orderedMapList_length (es : List pktInfo) :
    (orderedMapList es).length = (es.map pktInfo.sequenceNumber).dedup.length := by
  have hgen : ∀ keys : List Nat, (∀ k ∈ keys, k ∈ es.map pktInfo.sequenceNumber) →
      (keys.filterMap (fun k => (lastWrite es k).map (fun t => (⟨k, t⟩ : pktInfo)))).length
        = keys.length := by
    intro keys
    induction keys with
    | nil => intro _; rfl
    | cons k ks ih =>
      intro hks
      obtain ⟨t, ht⟩ := lastWrite_isSome (hks k (List.mem_cons_self _ _))
      rw [List.filterMap_cons, ht]
      simp only [Option.map_some', List.length_cons]
      rw [ih (fun k1 hk1 => hks k1 (List.mem_cons_of_mem _ hk1))]
  unfold orderedMapList
  rw [hgen _ (fun k hk => by
    rw [(List.perm_insertionSort _ _).mem_iff, List.mem_dedup] at hk
    exact hk)]
  exact (List.perm_insertionSort _ _).length_eq

theorem ascending_ext {l1 l2 : List pktInfo} (h1 : Ascending l1) (h2 : Ascending l2)
    (hmem : ∀ x, x ∈ l1 ↔ x ∈ l2) : l1 = l2 := by
  have hn : ∀ {l : List pktInfo}, Ascending l → l.Nodup := by
    intro l hl
    exact List.Pairwise.imp (fun {a b} hab heq => by rw [heq] at hab; omega) hl
  have hperm : l1.Perm l2 := (List.perm_ext_iff_of_nodup (hn h1) (hn h2)).mpr hmem
  have : IsAntisymm pktInfo (fun a b => a.sequenceNumber < b.sequenceNumber) :=
    ⟨fun a b hab hba => by omega⟩
  exact List.eq_of_perm_of_sorted hperm h1 h2

/-! ## Coverage when the retried add is accepted -/

/-- Coverage of the ledger on the runs where every retried add is accepted: if the encoder
takes any entry into a report that `newFeedback` has just created, without base fields,
then the entries recorded in the returned reports, concatenated in list order, are the
ledger entries in ledger order, and every report after the first starts with the entry
that the report before it refused. The code itself never checks the retried add. -/
theorem BuildFeedbackPacket_covers (fits : feedback → Nat → Int → Bool) (r : recorderOld)
    (hfresh : ∀ a b c s t, fits (newFeedback a b c) s t = true)
    (hlen : 2 ≤ r.receivedPackets.length) :
    ∃ r1 out, BuildFeedbackPacket fits r = some (r1, out) ∧
      (out.map feedback.received).flatten = r.receivedPackets.map entryOf ∧
      (∃ groups : List (List pktInfo), groups.flatten = r.receivedPackets ∧
        groups.map (List.map entryOf) = out.map feedback.received) ∧
      List.Chain' (startsWithRefused fits) out := by
  obtain ⟨first, rest, hl⟩ := ledger_head_of_two_le hlen
  have hcover : (((buildLoop fits r.senderSSRC r.mediaSSRC r.receivedPackets
      (buildInit r first)).pkts ++ [(buildLoop fits r.senderSSRC r.mediaSSRC r.receivedPackets
      (buildInit r first)).feedback]).map feedback.received).flatten
        = r.receivedPackets.map entryOf := by
    have := buildLoop_records fits r.senderSSRC r.mediaSSRC hfresh r.receivedPackets
      (buildInit r first)
    simpa [buildInit, newFeedback, feedback.setBase] using this
  refine ⟨_, _, BuildFeedbackPacket_large fits r first rest hl hlen _ rfl, hcover,
    groups_of_flatten_eq_map entryOf _ _ hcover, ?_⟩
  exact buildLoop_refused fits _ _ hfresh _ _ (by simp [buildInit])

theorem BuildFeedbackPacket_covers_witness :
    ∃ r1 out, BuildFeedbackPacket (fun f _ _ => decide (f.received.length < 1))
        ⟨[⟨7, 100⟩, ⟨8, 200⟩], 0, 8, 1, 2, 0⟩ = some (r1, out) ∧
      (out.map feedback.received).flatten = [(7, 100), (8, 200)] := by
  obtain ⟨r1, out, h, hc, -, -⟩ := BuildFeedbackPacket_covers
    (fun f _ _ => decide (f.received.length < 1)) ⟨[⟨7, 100⟩, ⟨8, 200⟩], 0, 8, 1, 2, 0⟩
    (by intro a b c s t; simp [newFeedback]) (by decide)
  exact ⟨r1, out, h, by rw [hc]; decide⟩

/-! ## Claims -/

/-- Claim C1. `Record` never fails; it adds `0x10000` to `cycles` (in `uint32` arithmetic, so
a plain addition whenever the sum fits) exactly when `seq16 < 0x0fff` and the previous
`lastSequenceNumber > 0xf000`, and otherwise leaves `cycles` unchanged; the entry inserted
into the ledger has extended sequence `(updated cycles) | seq16`, and `lastSequenceNumber`
becomes `seq16`. From `cycles = 0` and `lastSequenceNumber = 65530`, `Record(_, 5, t)`
inserts extended sequence `0x10000 + 5`. -/
theorem Record_extends (r : recorderOld) (m s : Nat) (t : Int) (hwf : r.wf) :
    (∃ r1, Record r m s t = some r1 ∧
      (s < 0x0fff ∧ r.lastSequenceNumber > 0xf000 →
        r1.cycles = (r.cycles + 0x10000) % 2 ^ 32 ∧
        (r.cycles + 0x10000 < 2 ^ 32 → r1.cycles = r.cycles + 0x10000)) ∧
      (¬ (s < 0x0fff ∧ r.lastSequenceNumber > 0xf000) → r1.cycles = r.cycles) ∧
      (r1.cycles ≠ r.cycles ↔ (s < 0x0fff ∧ r.lastSequenceNumber > 0xf000)) ∧
      insertSorted r.receivedPackets ⟨r1.cycles ||| s, t⟩ = some r1.receivedPackets ∧
      (⟨r1.cycles ||| s, t⟩ : pktInfo) ∈ r1.receivedPackets ∧
      r1.lastSequenceNumber = s) ∧
    (∃ r2, Record { r with cycles := 0, lastSequenceNumber := 65530 } m 5 t = some r2 ∧
      insertSorted r.receivedPackets ⟨0x10000 + 5, t⟩ = some r2.receivedPackets ∧
      (⟨0x10000 + 5, t⟩ : pktInfo) ∈ r2.receivedPackets) := by
  obtain ⟨hc, hl, -, -, -⟩ := hwf
  constructor
  · refine ⟨_, Record_eq r m s t _ rfl, ?_⟩
    simp only [and_mask16 hl, insertSorted_eq, List.mem_reverse]
    refine ⟨?_, ?_, ?_, trivial, self_mem_scanInsert _ _, trivial⟩
    · intro h
      rw [if_pos h]
      exact ⟨rfl, fun h1 => Nat.mod_eq_of_lt h1⟩
    · intro h
      rw [if_neg h]
    · by_cases h : s < 0x0fff ∧ r.lastSequenceNumber > 0xf000
      · rw [if_pos h]
        simp only [h, and_self, iff_true]
        omega
      · simp only [if_neg h, h, iff_false]
        simp
  · have h5 : (0x10000 + 5 : Nat) = 0x10000 ||| 5 := by decide
    have hcyc : (0x10000 : Nat) = if 5 < 0x0fff ∧ ((65530 : Nat) &&& 0xffff) > 0xf000
        then (0 + 0x10000) % 2 ^ 32 else 0 := by decide
    refine ⟨_, Record_eq _ m 5 t 0x10000 hcyc, ?_⟩
    simp only [insertSorted_eq, List.mem_reverse, h5]
    exact ⟨trivial, self_mem_scanInsert _ _⟩

theorem Record_extends_witness :
    (recorderOld.mk [] 0 65530 1 2 0).wf ∧
      ∃ r1, Record (recorderOld.mk [] 0 65530 1 2 0) 2 5 7 = some r1 ∧
        r1.cycles = 0x10000 ∧ r1.lastSequenceNumber = 5 := by
  have hwf : (recorderOld.mk [] 0 65530 1 2 0).wf := by decide
  obtain ⟨⟨r1, h1, hinc, -, -, -, -, hlast⟩, -⟩ :=
    Record_extends (recorderOld.mk [] 0 65530 1 2 0) 2 5 7 hwf
  exact ⟨hwf, r1, h1, (hinc (by decide)).2 (by decide), hlast⟩

/-- Claim C2, refuted as stated: sequence number 1 is ahead of 0xf000 modulo 65536 (by 4097,
a gap of lost packets), yet after recording 0xf000 and then 1 on a fresh recorder the
second entry is stored under extended sequence 1, below the first one, with `cycles`
still 0, instead of `1 * 65536 + 1`. -/
theorem recordAll_missed_wrap :
    ahead 0xf000 1 ∧
      recordAll (newRecorderOld 1) [⟨2, 0xf000, 10⟩, ⟨2, 1, 20⟩]
        = some ⟨[⟨1, 20⟩, ⟨0xf000, 10⟩], 0, 1, 1, 2, 0⟩ ∧
      unwrapped 0 0 [⟨2, 0xf000, 10⟩, ⟨2, 1, 20⟩] = [⟨0xf000, 10⟩, ⟨65537, 20⟩] ∧
      ¬ ((0xf000 : Nat) < 1) := by
  decide

/-- Claim C2, amended. Take Record calls on a fresh recorder whose 16-bit sequence numbers
each advance on the previous one (ahead modulo 65536, gaps allowed), where every step
that crosses the wrap goes from above 0xf000 to below 0x0fff, and with fewer than 65536
wraps in all. Then every call returns, the ledger lists the entries in call order, it is
strictly ascending, the entry of call `i` has extended sequence
`(whole wraps up to call i) * 65536 + seq16`, and after every initial part of the calls
`cycles` equals `65536 * (whole wraps so far)`. -/
theorem recordAll_advancing (senderSSRC : Nat) (cs : List RecordCall)
    (h16 : ∀ c ∈ cs, c.sequenceNumber < 65536)
    (hchain : List.Chain' advances (cs.map RecordCall.sequenceNumber))
    (hwraps : wrapsAfter 0 0 (cs.map RecordCall.sequenceNumber) < 65536) :
    (∃ r, recordAll (newRecorderOld senderSSRC) cs = some r ∧
      r.receivedPackets.map pktInfo.arrivalTime = cs.map RecordCall.arrivalTime ∧
      Ascending r.receivedPackets ∧
      (∀ i (hi : i < cs.length), r.receivedPackets[i]? = some
        ⟨wrapsAfter 0 0 ((cs.take (i + 1)).map RecordCall.sequenceNumber) * 65536
          + cs[i].sequenceNumber, cs[i].arrivalTime⟩)) ∧
    (∀ n, ∃ rn, recordAll (newRecorderOld senderSSRC) (cs.take n) = some rn ∧
      rn.receivedPackets = unwrapped 0 0 (cs.take n) ∧
      rn.cycles = wrapsAfter 0 0 ((cs.take n).map RecordCall.sequenceNumber) * 65536) := by
  constructor
  · obtain ⟨r, hrun, hled, -⟩ := fresh_run_advancing senderSSRC cs h16 hchain hwraps
    refine ⟨r, hrun, ?_, ?_, ?_⟩
    · rw [hled, unwrapped_arrivalTime]
    · exact recordAll_ascending cs _ r (by simp [Ascending, newRecorderOld]) hrun
    · intro i hi
      rw [hled, unwrapped_entry cs 0 0 i hi]
  · intro n
    have hmap : (cs.take n).map RecordCall.sequenceNumber
        = (cs.map RecordCall.sequenceNumber).take n := by
      rw [List.map_take]
    exact fresh_run_advancing senderSSRC (cs.take n)
      (fun c hc => h16 c (List.mem_of_mem_take hc))
      (by rw [hmap]; exact hchain.take n)
      (by rw [hmap]; exact lt_of_le_of_lt (wrapsAfter_take_le _ _ _ _) hwraps)

theorem recordAll_advancing_witness :
    (∀ c ∈ ([⟨2, 0xfffe, 10⟩, ⟨2, 0xffff, 20⟩, ⟨2, 3, 30⟩] : List RecordCall),
        c.sequenceNumber < 65536) ∧
      List.Chain' advances [0xfffe, 0xffff, 3] ∧
      wrapsAfter 0 0 [0xfffe, 0xffff, 3] < 65536 ∧
      ∃ r, recordAll (newRecorderOld 1) [⟨2, 0xfffe, 10⟩, ⟨2, 0xffff, 20⟩, ⟨2, 3, 30⟩] = some r ∧
        r.receivedPackets[2]? = some ⟨0x10003, 30⟩ := by
  have h16 : ∀ c ∈ ([⟨2, 0xfffe, 10⟩, ⟨2, 0xffff, 20⟩, ⟨2, 3, 30⟩] : List RecordCall),
      c.sequenceNumber < 65536 := by decide
  have hchain : List.Chain' advances [0xfffe, 0xffff, 3] := by
    simp only [List.chain'_cons, List.chain'_singleton, and_true]
    decide
  have hwraps : wrapsAfter 0 0 [0xfffe, 0xffff, 3] < 65536 := by decide
  obtain ⟨⟨r, hrun, -, -, hentry⟩, -⟩ := recordAll_advancing 1
    [⟨2, 0xfffe, 10⟩, ⟨2, 0xffff, 20⟩, ⟨2, 3, 30⟩] h16 hchain hwraps
  refine ⟨h16, hchain, hwraps, r, hrun, ?_⟩
  rw [hentry 2 (by decide)]
  decide

/-- Claim C3. Inserting `(k, t)` into a strictly ascending ledger whose entry at position
`i` has extended sequence `k` returns the ledger with position `i` replaced by `(k, t)`:
same length, every other position unchanged, no duplicate added. Recording sequence
number 20 twice on a fresh recorder, at times 100 and 150, leaves the single entry
`(20, 150)`. -/
theorem insertSorted_duplicate (list : List pktInfo) (k : Nat) (t : Int) (i : Nat)
    (senderSSRC ssrcA : Nat) (hi : i < list.length) (hasc : Ascending list)
    (hk : list[i].sequenceNumber = k) :
    insertSorted list ⟨k, t⟩ = some (list.set i ⟨k, t⟩) ∧
      (list.set i ⟨k, t⟩).length = list.length ∧
      (list.set i ⟨k, t⟩)[i]? = some ⟨k, t⟩ ∧
      (∀ j, j ≠ i → (list.set i ⟨k, t⟩)[j]? = list[j]?) ∧
      (recordAll (newRecorderOld senderSSRC) [⟨ssrcA, 20, 100⟩, ⟨ssrcA, 20, 150⟩]).map
        recorderOld.receivedPackets = some [⟨20, 150⟩] := by
  refine ⟨?_, List.length_set _ _ _, ?_, ?_, ?_⟩
  · have hsplit : list = list.take i ++ list[i] :: list.drop (i + 1) := by
      rw [List.getElem_cons_drop, List.take_append_drop]
    have h := insertSorted_overwrite (list.take i) (list.drop (i + 1)) list[i] ⟨k, t⟩
      (by rw [← hsplit]; exact hasc) hk
    rw [← hsplit] at h
    rw [h, List.set_eq_take_append_cons_drop, if_pos hi]
  · simp [hi]
  · intro j hj
    simp [List.getElem?_set, Ne.symm hj]
  · have h0 : (0 ||| 20 : Nat) = 20 := by decide
    rw [recordAll, Record_eq _ _ _ _ 0 (by simp [newRecorderOld])]
    simp only [recordAll]
    have h20 : (20 &&& 0xffff : Nat) = 20 := by decide
    rw [Record_eq _ _ _ _ 0 (by simp [h20])]
    simp [newRecorderOld, scanInsert, h0]

theorem insertSorted_duplicate_witness :
    Ascending [⟨20, 100⟩] ∧ insertSorted [⟨20, 100⟩] ⟨20, 150⟩ = some [⟨20, 150⟩] := by
  have hasc : Ascending [⟨20, 100⟩] := by simp [Ascending]
  exact ⟨hasc, (insertSorted_duplicate [⟨20, 100⟩] 20 150 0 0 0 (by decide) hasc rfl).1⟩

/-- Claim C4. In every state reachable from `newRecorderOld` by `Record` and
`BuildFeedbackPacket` calls, in any order and with any sequence numbers,
`receivedPackets` is strictly ascending by extended sequence number, and so holds no two
entries with the same extended sequence number. -/
theorem reachable_ascending (fits : feedback → Nat → Int → Bool) (r : recorderOld)
    (h : Reachable fits r) :
    Ascending r.receivedPackets ∧
      (r.receivedPackets.map pktInfo.sequenceNumber).Nodup := by
  obtain ⟨senderSSRC, calls, -, -, hrun⟩ := h
  have hasc : Ascending r.receivedPackets :=
    run_ascending fits calls _ r (by simp [Ascending, newRecorderOld]) hrun
  refine ⟨hasc, ?_⟩
  unfold Ascending at hasc
  rw [List.Nodup, List.pairwise_map]
  exact hasc.imp (fun h => Nat.ne_of_lt h)

theorem reachable_ascending_witness :
    Reachable (fun _ _ _ => true) ⟨[⟨10, 7⟩, ⟨20, 5⟩], 0, 10, 1, 2, 0⟩ ∧
      Ascending [⟨10, 7⟩, ⟨20, 5⟩] := by
  have hr : Reachable (fun _ _ _ => true) ⟨[⟨10, 7⟩, ⟨20, 5⟩], 0, 10, 1, 2, 0⟩ := by
    refine ⟨1, [Call.record 2 20 5, Call.record 2 10 7], by decide, ?_, ?_⟩
    · intro c hc
      simp only [List.mem_cons, List.mem_singleton, List.not_mem_nil, or_false] at hc
      rcases hc with rfl | rfl <;> simp [Call.wf]
    · decide
  exact ⟨hr, (reachable_ascending _ _ hr).1⟩

/-- Claim C5, refuted as stated: after `Record(2, 20, 100)` on a fresh recorder the ledger
holds one entry, and `BuildFeedbackPacket` returns no packet and leaves that entry in
the ledger. -/
theorem BuildFeedbackPacket_keeps_single_entry :
    Record (newRecorderOld 1) 2 20 100 = some ⟨[⟨20, 100⟩], 0, 20, 1, 2, 0⟩ ∧
      BuildFeedbackPacket (fun _ _ _ => true) ⟨[⟨20, 100⟩], 0, 20, 1, 2, 0⟩
        = some (⟨[⟨20, 100⟩], 0, 20, 1, 2, 0⟩, []) ∧
      (⟨[⟨20, 100⟩], 0, 20, 1, 2, 0⟩ : recorderOld).receivedPackets ≠ [] := by
  decide

/-- Claim C5, amended. `BuildFeedbackPacket` always returns; when at least 2 entries are
buffered the ledger is empty afterwards, and when fewer than 2 are buffered the ledger is
left as it was (empty for 0 entries, the single entry for 1). -/
theorem BuildFeedbackPacket_ledger_after (fits : feedback → Nat → Int → Bool)
    (r : recorderOld) :
    ∃ r1 out, BuildFeedbackPacket fits r = some (r1, out) ∧
      (2 ≤ r.receivedPackets.length → r1.receivedPackets = []) ∧
      (r.receivedPackets.length < 2 → r1.receivedPackets = r.receivedPackets) ∧
      (r.receivedPackets.length ≠ 1 → r1.receivedPackets = []) := by
  by_cases hlen : r.receivedPackets.length < 2
  · refine ⟨r, [], BuildFeedbackPacket_small fits r hlen, fun h => by omega, fun _ => rfl, ?_⟩
    intro h1
    exact List.length_eq_zero.mp (by omega)
  · obtain ⟨first, rest, hl⟩ := ledger_head_of_two_le (by omega : 2 ≤ r.receivedPackets.length)
    exact ⟨_, _, BuildFeedbackPacket_large fits r first rest hl (by omega) _ rfl,
      fun _ => rfl, fun h => by omega, fun _ => rfl⟩

theorem BuildFeedbackPacket_ledger_after_witness :
    ∃ r1 out, BuildFeedbackPacket (fun _ _ _ => true) ⟨[⟨20, 100⟩, ⟨21, 110⟩], 0, 21, 1, 2, 0⟩
      = some (r1, out) ∧ r1.receivedPackets = [] := by
  obtain ⟨r1, out, h, h2, -, -⟩ := BuildFeedbackPacket_ledger_after (fun _ _ _ => true)
    ⟨[⟨20, 100⟩, ⟨21, 110⟩], 0, 21, 1, 2, 0⟩
  exact ⟨r1, out, h, h2 (by decide)⟩

/-- Claim C6. With fewer than 2 buffered entries `BuildFeedbackPacket` returns the empty
list and the recorder is unchanged: `fbPktCnt` is not advanced and no other field
changes. -/
theorem BuildFeedbackPacket_underpopulated (fits : feedback → Nat → Int → Bool)
    (r : recorderOld) (h : r.receivedPackets.length < 2) :
    ∃ r1, BuildFeedbackPacket fits r = some (r1, []) ∧ r1.fbPktCnt = r.fbPktCnt ∧ r1 = r :=
  ⟨r, BuildFeedbackPacket_small fits r h, rfl, rfl⟩

theorem BuildFeedbackPacket_underpopulated_witness :
    (⟨[⟨20, 100⟩], 0, 20, 1, 2, 5⟩ : recorderOld).receivedPackets.length < 2 ∧
      ∃ r1, BuildFeedbackPacket (fun _ _ _ => true) ⟨[⟨20, 100⟩], 0, 20, 1, 2, 5⟩ = some (r1, [])
        ∧ r1.fbPktCnt = 5 := by
  obtain ⟨r1, h, hcnt, -⟩ := BuildFeedbackPacket_underpopulated (fun _ _ _ => true)
    ⟨[⟨20, 100⟩], 0, 20, 1, 2, 5⟩ (by decide)
  exact ⟨by decide, r1, h, hcnt⟩

/-- Claim C7. Every `BuildFeedbackPacket` call returns, with exactly one of two outcomes:
the ledger is left empty and the returned list is non-empty, which happens exactly when at
least 2 entries were buffered; or the ledger is left as it was and the returned list is
empty, which happens exactly when fewer than 2 entries were buffered. -/
theorem BuildFeedbackPacket_two_outcomes (fits : feedback → Nat → Int → Bool)
    (r : recorderOld) :
    ∃ r1 out, BuildFeedbackPacket fits r = some (r1, out) ∧
      ((r1.receivedPackets = [] ∧ out ≠ []) ↔ 2 ≤ r.receivedPackets.length) ∧
      ((r1.receivedPackets = r.receivedPackets ∧ out = []) ↔ r.receivedPackets.length < 2) ∧
      Xor' (r1.receivedPackets = [] ∧ out ≠ [])
        (r1.receivedPackets = r.receivedPackets ∧ out = []) := by
  by_cases hlen : r.receivedPackets.length < 2
  · refine ⟨r, [], BuildFeedbackPacket_small fits r hlen, ?_, ?_, ?_⟩
    · simp; omega
    · simp [hlen]
    · simp [Xor']
  · obtain ⟨first, rest, hl⟩ := ledger_head_of_two_le (by omega : 2 ≤ r.receivedPackets.length)
    refine ⟨_, _, BuildFeedbackPacket_large fits r first rest hl (by omega) _ rfl, ?_, ?_, ?_⟩
    · simp; omega
    · simp [hlen]
    · simp [Xor']

/-- Claim C8, evaluated at a failing input: two buffered entries and an encoder that takes
one entry per report and none into a report whose base was never set. The add of
`(8, 200)` fails on the first report; the report started for it is created without
`setBase` and the result of the retried add is discarded, so the two returned reports
hold `(7, 100)` only and `(8, 200)` is lost. The same encoder accepts `(8, 200)` into a new
report seeded with `setBase(8, 200)`, as the first-report path seeds its report. -/
theorem BuildFeedbackPacket_loses_refused_entry :
    BuildFeedbackPacket (fun f _ _ => f.base.isSome && decide (f.received.length < 1))
        ⟨[⟨7, 100⟩, ⟨8, 200⟩], 0, 8, 1, 2, 0⟩
      = some (⟨[], 0, 8, 1, 2, 2⟩,
          [⟨1, 2, 0, some (7, 100), [(7, 100)]⟩, ⟨1, 2, 1, none, []⟩]) ∧
    (([⟨1, 2, 0, some (7, 100), [(7, 100)]⟩, ⟨1, 2, 1, none, []⟩] : List feedback).map
        feedback.received).flatten = [(7, 100)] ∧
    ([⟨7, 100⟩, ⟨8, 200⟩] : List pktInfo).map entryOf = [(7, 100), (8, 200)] ∧
    (fun (f : feedback) (_ : Nat) (_ : Int) => f.base.isSome && decide (f.received.length < 1))
        (newFeedback 1 2 1) 8 200 = false ∧
    (fun (f : feedback) (_ : Nat) (_ : Int) => f.base.isSome && decide (f.received.length < 1))
        ((newFeedback 1 2 1).setBase 8 200) 8 200 = true := by
  decide

/-- Claim C9. For a ledger of at least 2 entries and pre-call report index `i`,
`BuildFeedbackPacket` returns `k = 1 + (number of entries whose first add attempt failed)`
reports, their report indices are `i, i+1, ..., i+k-1` modulo 256 in list order, and
`fbPktCnt` is left at `(i + k) mod 256`. -/
theorem BuildFeedbackPacket_report_indices (fits : feedback → Nat → Int → Bool)
    (r : recorderOld) (hcnt : r.fbPktCnt < 2 ^ 8) (hlen : 2 ≤ r.receivedPackets.length) :
    ∃ r1 out first, r.receivedPackets[0]? = some first ∧
      BuildFeedbackPacket fits r = some (r1, out) ∧
      out.length = 1 + failedFirstAdds fits r.senderSSRC r.mediaSSRC r.receivedPackets
        (buildInit r first) ∧
      out.map feedback.fbPktCnt = indexRun r.fbPktCnt out.length ∧
      (∀ j, j < out.length → (out.map feedback.fbPktCnt)[j]? = some ((r.fbPktCnt + j) % 256)) ∧
      r1.fbPktCnt = (r.fbPktCnt + out.length) % 256 := by
  obtain ⟨first, rest, hl⟩ := ledger_head_of_two_le hlen
  have hinit : ((buildInit r first).pkts ++ [(buildInit r first).feedback]).map
      feedback.fbPktCnt = indexRun r.fbPktCnt ((buildInit r first).pkts.length + 1) ∧
      (buildInit r first).fbPktCnt
        = (r.fbPktCnt + (buildInit r first).pkts.length + 1) % 2 ^ 8 := by
    have h1 : List.range 1 = [0] := by decide
    have h2 : r.fbPktCnt % 256 = r.fbPktCnt := Nat.mod_eq_of_lt hcnt
    simp [buildInit, newFeedback, feedback.setBase, indexRun, h1, h2]
  obtain ⟨hidx, hfb⟩ := buildLoop_indices fits r.senderSSRC r.mediaSSRC r.fbPktCnt
    r.receivedPackets (buildInit r first) hinit
  have hk := buildLoop_length fits r.senderSSRC r.mediaSSRC r.receivedPackets (buildInit r first)
  refine ⟨_, _, first, by simp [hl],
    BuildFeedbackPacket_large fits r first rest hl hlen _ rfl, ?_, ?_, ?_, ?_⟩
  · rw [List.length_append, hk]
    simp [buildInit]
    omega
  · rw [hidx]
    simp
  · intro j hj
    rw [hidx]
    simp only [List.length_append, List.length_singleton] at hj
    simp [indexRun, List.getElem?_map, List.getElem?_range hj]
  · simp only [List.length_append, List.length_singleton]
    rw [hfb]
    norm_num [Nat.add_assoc]

theorem BuildFeedbackPacket_report_indices_witness :
    ∃ r1 out, BuildFeedbackPacket (fun f _ _ => decide (f.received.length < 1))
        ⟨[⟨7, 100⟩, ⟨8, 200⟩, ⟨9, 300⟩], 0, 9, 1, 2, 254⟩ = some (r1, out) ∧
      out.map feedback.fbPktCnt = [254, 255, 0] ∧ r1.fbPktCnt = 1 := by
  obtain ⟨r1, out, first, -, h, -, hidx, -, hfb⟩ := BuildFeedbackPacket_report_indices
    (fun f _ _ => decide (f.received.length < 1))
    ⟨[⟨7, 100⟩, ⟨8, 200⟩, ⟨9, 300⟩], 0, 9, 1, 2, 254⟩ (by decide) (by decide)
  have hout : BuildFeedbackPacket (fun f _ _ => decide (f.received.length < 1))
      ⟨[⟨7, 100⟩, ⟨8, 200⟩, ⟨9, 300⟩], 0, 9, 1, 2, 254⟩
      = some (⟨[], 0, 9, 1, 2, 1⟩,
        [⟨1, 2, 254, some (7, 100), [(7, 100)]⟩, ⟨1, 2, 255, none, [(8, 200)]⟩,
          ⟨1, 2, 0, none, [(9, 300)]⟩]) := by decide
  rw [hout] at h
  cases h
  exact ⟨_, _, hout, by rw [hidx]; decide, by rw [hfb]; decide⟩

/-- Claim C10, evaluated at a failing input: two buffered entries and an encoder that
accepts one entry per report. The second report, started after the capacity failure,
holds the entry `(8, 200)` but its base fields were never set, while the first report has
the base fields `(7, 100)` of its first entry. -/
theorem BuildFeedbackPacket_second_report_base_unset :
    BuildFeedbackPacket (fun f _ _ => decide (f.received.length < 1))
        ⟨[⟨7, 100⟩, ⟨8, 200⟩], 0, 8, 1, 2, 0⟩
      = some (⟨[], 0, 8, 1, 2, 2⟩,
          [⟨1, 2, 0, some (7, 100), [(7, 100)]⟩, ⟨1, 2, 1, none, [(8, 200)]⟩]) ∧
    (⟨1, 2, 1, none, [(8, 200)]⟩ : feedback).base ≠ some (8, 200) := by
  decide

/-- Claim C11. For a strictly ascending ledger of at least 2 entries on which no add
attempt fails, `BuildFeedbackPacket` returns exactly one report: it carries the pre-call
report index, its base sequence is the low 16 bits of the first entry, which has the
smallest extended sequence of the ledger, its base time is the arrival time of that
entry, and it holds all entries in ledger (ascending) order. -/
theorem BuildFeedbackPacket_single_report (fits : feedback → Nat → Int → Bool)
    (r : recorderOld) (first : pktInfo) (rest : List pktInfo)
    (senderSSRC ssrcA : Nat)
    (hl : r.receivedPackets = first :: rest) (hlen : 2 ≤ r.receivedPackets.length)
    (hasc : Ascending r.receivedPackets)
    (hok : failedFirstAdds fits r.senderSSRC r.mediaSSRC r.receivedPackets
      (buildInit r first) = 0) :
    BuildFeedbackPacket fits r = some
        ({ r with receivedPackets := [], fbPktCnt := (r.fbPktCnt + 1) % 2 ^ 8 },
          [⟨r.senderSSRC, r.mediaSSRC, r.fbPktCnt,
            some (uint16 (first.sequenceNumber &&& 0xffff), first.arrivalTime),
            r.receivedPackets.map entryOf⟩]) ∧
      (∀ x ∈ r.receivedPackets, first.sequenceNumber ≤ x.sequenceNumber) ∧
      (recordAll (newRecorderOld senderSSRC) [⟨ssrcA, 10, 1000⟩, ⟨ssrcA, 11, 1010⟩]).bind
          (BuildFeedbackPacket (fun _ _ _ => true))
        = some (⟨[], 0, 11, senderSSRC, ssrcA, 1⟩,
            [⟨senderSSRC, ssrcA, 0, some (10, 1000), [(10, 1000), (11, 1010)]⟩]) ∧
      (⟨senderSSRC, ssrcA, 0, some (10, 1000), [(10, 1000), (11, 1010)]⟩ : feedback).deltas
        = [0, 10] := by
  refine ⟨?_, ?_, ?_, ?_⟩
  · rw [BuildFeedbackPacket_large fits r first rest hl hlen _ rfl,
      buildLoop_no_failure fits _ _ _ _ hok]
    simp [buildInit, newFeedback, feedback.setBase]
  · intro x hx
    rw [hl] at hx hasc
    rcases List.mem_cons.mp hx with hx | hx
    · rw [hx]
    · exact Nat.le_of_lt ((List.pairwise_cons.mp hasc).1 x hx)
  · have h10 : (0 ||| 10 : Nat) = 10 := by decide
    have h11 : (0 ||| 11 : Nat) = 11 := by decide
    have hm : (10 &&& 0xffff : Nat) = 10 := by decide
    have hrun : recordAll (newRecorderOld senderSSRC) [⟨ssrcA, 10, 1000⟩, ⟨ssrcA, 11, 1010⟩]
        = some ⟨[⟨10, 1000⟩, ⟨11, 1010⟩], 0, 11, senderSSRC, ssrcA, 0⟩ := by
      rw [recordAll, Record_eq _ _ _ _ 0 (by simp [newRecorderOld])]
      simp only [recordAll]
      rw [Record_eq _ _ _ _ 0 (by simp [hm])]
      simp [newRecorderOld, scanInsert, h10, h11]
    rw [hrun]
    show BuildFeedbackPacket (fun _ _ _ => true) _ = _
    rw [BuildFeedbackPacket_large (fun _ _ _ => true) _ ⟨10, 1000⟩ [⟨11, 1010⟩] rfl
      (by simp) _ rfl]
    have e10 : entryOf ⟨10, 1000⟩ = (10, 1000) := by decide
    have e11 : entryOf ⟨11, 1010⟩ = (11, 1010) := by decide
    have hu : uint16 (10 &&& 65535) = 10 := by decide
    simp [buildLoop, buildInit, buildStep_accept, newFeedback, feedback.setBase, e10, e11, hu]
  · simp [feedback.deltas]

theorem BuildFeedbackPacket_single_report_witness :
    Ascending [⟨10, 1000⟩, ⟨11, 1010⟩] ∧
      failedFirstAdds (fun _ _ _ => true) 1 2 [⟨10, 1000⟩, ⟨11, 1010⟩]
        (buildInit ⟨[⟨10, 1000⟩, ⟨11, 1010⟩], 0, 11, 1, 2, 0⟩ ⟨10, 1000⟩) = 0 ∧
      BuildFeedbackPacket (fun _ _ _ => true) ⟨[⟨10, 1000⟩, ⟨11, 1010⟩], 0, 11, 1, 2, 0⟩
        = some (⟨[], 0, 11, 1, 2, 1⟩,
            [⟨1, 2, 0, some (10, 1000), [(10, 1000), (11, 1010)]⟩]) := by
  have hasc : Ascending [⟨10, 1000⟩, ⟨11, 1010⟩] := by simp [Ascending]
  have hok : failedFirstAdds (fun _ _ _ => true) 1 2 [⟨10, 1000⟩, ⟨11, 1010⟩]
      (buildInit ⟨[⟨10, 1000⟩, ⟨11, 1010⟩], 0, 11, 1, 2, 0⟩ ⟨10, 1000⟩) = 0 := by decide
  have h := (BuildFeedbackPacket_single_report (fun _ _ _ => true)
    ⟨[⟨10, 1000⟩, ⟨11, 1010⟩], 0, 11, 1, 2, 0⟩ ⟨10, 1000⟩ [⟨11, 1010⟩] 1 2 rfl (by decide)
    hasc hok).1
  refine ⟨hasc, hok, ?_⟩
  rw [h]
  decide

/-- Claim C12. After any calls on a recorder made by `newRecorderOld(senderSSRC)`, the
recorder still holds that sender SSRC and holds the media SSRC of the most recent
`Record` call; every report returned by `BuildFeedbackPacket` carries these two values;
`Record` never changes `senderSSRC`, and `BuildFeedbackPacket` changes neither
`senderSSRC` nor `mediaSSRC`. -/
theorem reports_carry_ssrc (fits : feedback → Nat → Int → Bool) (senderSSRC : Nat)
    (calls : List Call) (r : recorderOld)
    (hrun : run fits (newRecorderOld senderSSRC) calls = some r) :
    r.senderSSRC = senderSSRC ∧ r.mediaSSRC = lastMedia 0 calls ∧
      (∃ r1 out, BuildFeedbackPacket fits r = some (r1, out) ∧
        (∀ f ∈ out, f.senderSSRC = senderSSRC ∧ f.mediaSSRC = lastMedia 0 calls) ∧
        r1.senderSSRC = r.senderSSRC ∧ r1.mediaSSRC = r.mediaSSRC) ∧
      (∀ m s t, ∃ r2, Record r m s t = some r2 ∧ r2.senderSSRC = r.senderSSRC ∧
        r2.mediaSSRC = m) := by
  obtain ⟨h1, h2⟩ := run_ssrc fits calls _ r hrun
  have h1 : r.senderSSRC = senderSSRC := h1
  have h2 : r.mediaSSRC = lastMedia 0 calls := h2
  refine ⟨h1, h2, ?_, ?_⟩
  · obtain ⟨r1, out, hb, hs1, hs2, -, -, hout⟩ := BuildFeedbackPacket_ssrc fits r
    refine ⟨r1, out, hb, ?_, hs1, hs2⟩
    intro f hf
    rw [← h1, ← h2]
    exact hout f hf
  · intro m s t
    exact ⟨_, Record_eq r m s t _ rfl, rfl, rfl⟩

theorem reports_carry_ssrc_witness :
    run (fun _ _ _ => true) (newRecorderOld 1) [Call.record 5 10 1000, Call.record 6 11 1010]
        = some ⟨[⟨10, 1000⟩, ⟨11, 1010⟩], 0, 11, 1, 6, 0⟩ ∧
      ∃ r1 out, BuildFeedbackPacket (fun _ _ _ => true)
          ⟨[⟨10, 1000⟩, ⟨11, 1010⟩], 0, 11, 1, 6, 0⟩ = some (r1, out) ∧
        ∀ f ∈ out, f.senderSSRC = 1 ∧ f.mediaSSRC = 6 := by
  have hrun : run (fun _ _ _ => true) (newRecorderOld 1)
      [Call.record 5 10 1000, Call.record 6 11 1010]
      = some ⟨[⟨10, 1000⟩, ⟨11, 1010⟩], 0, 11, 1, 6, 0⟩ := by decide
  obtain ⟨-, -, ⟨r1, out, hb, hout, -, -⟩, -⟩ := reports_carry_ssrc (fun _ _ _ => true) 1
    [Call.record 5 10 1000, Call.record 6 11 1010] _ hrun
  exact ⟨hrun, r1, out, hb, hout⟩

/-- Claim C15, refuted as stated: after 65535 rounds of sequence numbers `0xffff`, `0` and a
`BuildFeedbackPacket`, followed by `Record` of `0xffff`, the recorder has
`cycles = 0xffff0000`; the next `Record` of sequence number `0` counts a wrap and the
`uint32` addition leaves `cycles = 0`, smaller than before the call. -/
theorem cycles_overflow_decreases :
    Reachable (fun _ _ _ => true) ⟨[⟨0xffffffff, 0⟩], 0xffff0000, 0xffff, 1, 0, 255⟩ ∧
      Record ⟨[⟨0xffffffff, 0⟩], 0xffff0000, 0xffff, 1, 0, 255⟩ 0 0 0
        = some ⟨[⟨0, 0⟩, ⟨0xffffffff, 0⟩], 0, 0, 1, 0, 255⟩ ∧
      (⟨[⟨0, 0⟩, ⟨0xffffffff, 0⟩], 0, 0, 1, 0, 255⟩ : recorderOld).cycles
        < (⟨[⟨0xffffffff, 0⟩], 0xffff0000, 0xffff, 1, 0, 255⟩ : recorderOld).cycles := by
  refine ⟨?_, by decide, by decide⟩
  refine ⟨1, wrapRounds 65535 ++ [Call.record 0 0xffff 0], by decide, ?_, ?_⟩
  · intro c hc
    rcases List.mem_append.mp hc with hc | hc
    · exact wrapRounds_wf _ c hc
    · rw [List.mem_singleton.mp hc]
      simp [Call.wf]
  · have h := run_wrapRounds 1 65535 0 0 (by decide) (by decide) (by decide)
    rw [run_append]
    have h0 : newRecorderOld 1 = ⟨[], 0, 0, 1, 0, 0⟩ := rfl
    rw [h0, h]
    decide

/-- Claim C15, amended. On every reachable recorder every call returns, and `cycles` never
decreases except by `uint32` overflow: a call makes `cycles` smaller exactly when it is a
`Record` call that counts a wrap while `cycles = 0xffff0000`, and `cycles` is then reset
to 0; while `cycles` is below `0xffff0000` no call makes it smaller, and
`BuildFeedbackPacket` never changes it. -/
theorem cycles_monotone_until_overflow (fits : feedback → Nat → Int → Bool)
    (r : recorderOld) (c : Call) (h : Reachable fits r) :
    ∃ r1, step fits r c = some r1 ∧
      (r1.cycles < r.cycles ↔
        (r.cycles = 0xffff0000 ∧ ∃ m s t, c = Call.record m s t ∧ s < 0x0fff ∧
          r.lastSequenceNumber > 0xf000)) ∧
      (r1.cycles < r.cycles → r1.cycles = 0) ∧
      (r.cycles < 0xffff0000 → r.cycles ≤ r1.cycles) ∧
      (c = Call.build → r1.cycles = r.cycles) := by
  obtain ⟨hmul, hlt⟩ := reachable_cycles fits h
  have hlast := reachable_last_lt fits h
  cases c with
  | record m s t =>
    refine ⟨_, Record_eq r m s t _ rfl, ?_, ?_, ?_, ?_⟩
    · simp only [and_mask16 hlast]
      by_cases hcond : s < 0x0fff ∧ r.lastSequenceNumber > 0xf000
      · rw [if_pos hcond]
        constructor
        · intro hdec
          exact ⟨by omega, m, s, t, rfl, hcond.1, hcond.2⟩
        · rintro ⟨hcyc, -⟩
          omega
      · rw [if_neg hcond]
        constructor
        · intro hdec
          omega
        · rintro ⟨-, m1, s1, t1, heq, hs1, hl1⟩
          cases heq
          exact absurd ⟨hs1, hl1⟩ hcond
    · simp only [and_mask16 hlast]
      split_ifs
      · intro hdec
        omega
      · intro hdec
        omega
    · simp only [and_mask16 hlast]
      intro hsmall
      split_ifs
      · omega
      · exact le_refl _
    · intro hb
      cases hb
  | build =>
    obtain ⟨r1, out, hb, -, -, hcyc, -, -⟩ := BuildFeedbackPacket_ssrc fits r
    refine ⟨r1, by simp [step, hb], ?_, ?_, ?_, ?_⟩
    · rw [hcyc]
      constructor
      · intro hdec
        omega
      · rintro ⟨-, m1, s1, t1, heq, -, -⟩
        cases heq
    · intro hdec
      omega
    · intro _
      omega
    · intro _
      exact hcyc

theorem cycles_monotone_until_overflow_witness :
    Reachable (fun _ _ _ => true) ⟨[⟨0xffff, 5⟩], 0, 0xffff, 1, 2, 0⟩ ∧
      ∃ r1, step (fun _ _ _ => true) ⟨[⟨0xffff, 5⟩], 0, 0xffff, 1, 2, 0⟩ (Call.record 2 0 7)
          = some r1 ∧
        (⟨[⟨0xffff, 5⟩], 0, 0xffff, 1, 2, 0⟩ : recorderOld).cycles ≤ r1.cycles := by
  have hr : Reachable (fun _ _ _ => true) ⟨[⟨0xffff, 5⟩], 0, 0xffff, 1, 2, 0⟩ := by
    refine ⟨1, [Call.record 2 0xffff 5], by decide, ?_, ?_⟩
    · intro c hc
      rw [List.mem_singleton.mp hc]
      simp [Call.wf]
    · decide
  obtain ⟨r1, h1, -, -, hmono, -⟩ := cycles_monotone_until_overflow (fun _ _ _ => true) _
    (Call.record 2 0 7) hr
  exact ⟨hr, r1, h1, hmono (by decide)⟩

/-- Claim C16. In every state reachable from `newRecorderOld`, `cycles` is a multiple of
`0x10000` (and a `uint32`); so for every `Record` call with a 16-bit sequence number the
stored extended sequence `cycles | seq16` equals `cycles + seq16`, its low 16 bits, which
`BuildFeedbackPacket` passes to `setBase` and `addReceived`, are the recorded `seq16`, and
its high 16 bits are `cycles >> 16`. -/
theorem reachable_cycles_multiple (fits : feedback → Nat → Int → Bool) (r : recorderOld)
    (m s : Nat) (t : Int) (h : Reachable fits r) (hs : s < 2 ^ 16) :
    r.cycles % 0x10000 = 0 ∧
      ∃ r1, Record r m s t = some r1 ∧ r1.cycles % 0x10000 = 0 ∧
        (⟨r1.cycles ||| s, t⟩ : pktInfo) ∈ r1.receivedPackets ∧
        r1.cycles ||| s = r1.cycles + s ∧
        entryOf ⟨r1.cycles ||| s, t⟩ = (s, t) ∧
        (r1.cycles ||| s) &&& 0xffff = s ∧
        (r1.cycles ||| s) >>> 16 = r1.cycles >>> 16 := by
  have hc := reachable_cycles fits h
  refine ⟨hc.1, ?_⟩
  have hrec := Record_eq r m s t _ rfl
  have hc1 := Record_cycles_multiple hc hrec
  obtain ⟨h1, h2, h3⟩ := or_seq16 hc1.1 hs
  refine ⟨_, hrec, hc1.1, ?_, h1, ?_, ?_, h3⟩
  · simp only [List.mem_reverse]
    exact self_mem_scanInsert _ _
  · simp only [entryOf]
    rw [h2]
  · have h4 : ∀ x : Nat, x &&& 0xffff = x % 2 ^ 16 := fun x =>
      Nat.and_pow_two_sub_one_eq_mod x 16
    rw [h4] at h2 ⊢
    simp only [uint16] at h2
    omega

theorem reachable_cycles_multiple_witness :
    Reachable (fun _ _ _ => true) ⟨[⟨0xffff, 5⟩, ⟨0x10000, 7⟩], 0x10000, 0, 1, 2, 0⟩ ∧
      ∃ r1, Record ⟨[⟨0xffff, 5⟩, ⟨0x10000, 7⟩], 0x10000, 0, 1, 2, 0⟩ 2 1 9 = some r1 ∧
        r1.cycles ||| 1 = r1.cycles + 1 := by
  have hr : Reachable (fun _ _ _ => true) ⟨[⟨0xffff, 5⟩, ⟨0x10000, 7⟩], 0x10000, 0, 1, 2, 0⟩ := by
    refine ⟨1, [Call.record 2 0xffff 5, Call.record 2 0 7], by decide, ?_, ?_⟩
    · intro c hc
      simp only [List.mem_cons, List.mem_singleton, List.not_mem_nil, or_false] at hc
      rcases hc with rfl | rfl <;> simp [Call.wf]
    · decide
  obtain ⟨-, r1, h1, -, -, h2, -⟩ := reachable_cycles_multiple (fun _ _ _ => true) _ 2 1 9 hr
    (by decide)
  exact ⟨hr, r1, h1, h2⟩

/-- Claim C17. Inserting any finite sequence of entries one by one into the empty ledger
with the tail-scanning `insertSorted` returns exactly the bindings, listed ascending by
key, of the map from extended sequence to the arrival time of the last inserted entry
with that key: the result is strictly ascending, holds `(k, t)` exactly when the last
write for `k` is `t`, has as many entries as there are distinct keys, and holds only
inserted entries. -/
theorem insertAll_refines_ordered_map (es : List pktInfo) :
    insertAll [] es = some (orderedMapList es) ∧
      Ascending (orderedMapList es) ∧
      (∀ k t, (⟨k, t⟩ : pktInfo) ∈ orderedMapList es ↔ lastWrite es k = some t) ∧
      (orderedMapList es).length = (es.map pktInfo.sequenceNumber).dedup.length ∧
      (∀ x ∈ orderedMapList es, x ∈ es) ∧
      (∀ k, k ∈ es.map pktInfo.sequenceNumber →
        ∃ t, (⟨k, t⟩ : pktInfo) ∈ orderedMapList es) ∧
      insertAll [] [⟨5, 1⟩, ⟨3, 2⟩, ⟨5, 3⟩, ⟨4, 4⟩] = some [⟨3, 2⟩, ⟨4, 4⟩, ⟨5, 3⟩] := by
  obtain ⟨l1, hrun, hasc, hmem⟩ := insertAll_spec es [] (by simp [Ascending])
  have heq : l1 = orderedMapList es := by
    apply ascending_ext hasc (orderedMapList_ascending es)
    intro x
    rw [hmem x, mem_orderedMapList]
    simp
  refine ⟨by rw [hrun, heq], orderedMapList_ascending es,
    fun k t => mem_orderedMapList es ⟨k, t⟩, orderedMapList_length es, ?_, ?_, by decide⟩
  · intro x hx
    exact lastWrite_mem ((mem_orderedMapList es x).mp hx)
  · intro k hk
    obtain ⟨t, ht⟩ := lastWrite_isSome hk
    exact ⟨t, (mem_orderedMapList es ⟨k, t⟩).mpr ht⟩

/-- Claim C18. No out-of-range access is reachable: for every ledger and entry the scan
of `insertSorted`, started at the end of the ledger, uses only indices and slice bounds
that are in range and returns a ledger of the same length or one entry longer; `Record`
and `BuildFeedbackPacket` return for every recorder (the read of `receivedPackets[0]`
happens only with at least 2 entries, a shorter ledger is returned untouched), and so
does every sequence of calls. -/
theorem no_out_of_range (fits : feedback → Nat → Int → Bool) :
    (∀ list e, ∃ l1, insertSorted list e = some l1 ∧
      (l1.length = list.length ∨ l1.length = list.length + 1)) ∧
    (∀ list e n, n ≤ list.length → ∃ l1, insertSortedLoop list e n = some l1) ∧
    (∀ r m s t, ∃ r1, Record r m s t = some r1) ∧
    (∀ r, ∃ r1 out, BuildFeedbackPacket fits r = some (r1, out) ∧
      (r.receivedPackets.length < 2 → r1 = r ∧ out = [])) ∧
    (∀ calls r, ∃ r1, run fits r calls = some r1) := by
  have hrec : ∀ r m s t, ∃ r1, Record r m s t = some r1 :=
    fun r m s t => ⟨_, Record_eq r m s t _ rfl⟩
  have hbuild : ∀ r, ∃ r1 out, BuildFeedbackPacket fits r = some (r1, out) ∧
      (r.receivedPackets.length < 2 → r1 = r ∧ out = []) := by
    intro r
    by_cases hlen : r.receivedPackets.length < 2
    · exact ⟨r, [], BuildFeedbackPacket_small fits r hlen, fun _ => ⟨rfl, rfl⟩⟩
    · obtain ⟨first, rest, hl⟩ := ledger_head_of_two_le (by omega : 2 ≤ r.receivedPackets.length)
      exact ⟨_, _, BuildFeedbackPacket_large fits r first rest hl (by omega) _ rfl,
        fun h => absurd h hlen⟩
  refine ⟨?_, ?_, hrec, hbuild, ?_⟩
  · intro list e
    refine ⟨_, insertSorted_eq list e, ?_⟩
    rw [List.length_reverse]
    have hlen : ∀ xs : List pktInfo, (scanInsert xs e).length = xs.length ∨
        (scanInsert xs e).length = xs.length + 1 := by
      intro xs
      induction xs with
      | nil => right; rfl
      | cons x xs ih =>
        unfold scanInsert
        split_ifs
        · right; rfl
        · left; rfl
        · rcases ih with ih | ih
          · left; simp [ih]
          · right; simp [ih]
    simpa using hlen list.reverse
  · intro list e n hn
    have h := insertSortedLoop_append e (list.drop n) (list.take n)
    rw [List.take_append_drop, List.length_take, Nat.min_eq_left hn] at h
    exact ⟨_, h⟩
  · intro calls
    induction calls with
    | nil => intro r; exact ⟨r, rfl⟩
    | cons c cs ih =>
      intro r
      have hstep : ∃ r2, step fits r c = some r2 := by
        cases c with
        | record m s t => exact hrec r m s t
        | build =>
          obtain ⟨r1, out, hb, -⟩ := hbuild r
          exact ⟨r1, by simp [step, hb]⟩
      obtain ⟨r2, h2⟩ := hstep
      obtain ⟨r1, h1⟩ := ih r2
      exact ⟨r1, by rw [run, h2]; exact h1⟩

/-- Claim C19. For every 16-bit start value `s0` and every `k` with `s0 + k < 2^32`, the
`Record` calls with the consecutive sequence numbers `s0, s0+1, ..., s0+k` (each reduced
modulo 65536) on a fresh recorder all return, the entry stored by call `j` has extended
sequence exactly `s0 + j`, and `cycles` ends at `65536 * ((s0 + k) / 65536)`: one wrap
counted for each passage from 65535 to 0 and none elsewhere. -/
theorem recordAll_consecutive_exact (senderSSRC : Nat) (m : Nat → Nat) (t : Nat → Int)
    (s0 k : Nat) (hs0 : s0 < 65536) (hk : s0 + k < 2 ^ 32) :
    ∃ r, recordAll (newRecorderOld senderSSRC) (consecutiveCalls m t s0 k) = some r ∧
      r.receivedPackets = (List.range (k + 1)).map (fun j => ⟨s0 + j, t j⟩) ∧
      (∀ j, j ≤ k → r.receivedPackets[j]? = some ⟨s0 + j, t j⟩) ∧
      r.cycles = 65536 * ((s0 + k) / 65536) ∧
      (∀ j, j ≤ k → ∃ rj, recordAll (newRecorderOld senderSSRC) (consecutiveCalls m t s0 j)
          = some rj ∧ rj.receivedPackets.getLast? = some ⟨s0 + j, t j⟩ ∧
        rj.cycles = 65536 * ((s0 + j) / 65536)) := by
  refine ⟨_, recordAll_consecutive senderSSRC m t s0 hs0 k hk, rfl, ?_, rfl, ?_⟩
  · intro j hj
    simp [List.getElem?_map, List.getElem?_range (by omega : j < k + 1)]
  · intro j hj
    refine ⟨_, recordAll_consecutive senderSSRC m t s0 hs0 j (by omega), ?_, rfl⟩
    simp [List.range_succ]

theorem recordAll_consecutive_exact_witness :
    (65534 : Nat) < 65536 ∧ 65534 + 3 < 2 ^ 32 ∧
      ∃ r, recordAll (newRecorderOld 1) (consecutiveCalls (fun _ => 2) (fun j => j) 65534 3)
          = some r ∧
        r.receivedPackets = [⟨65534, 0⟩, ⟨65535, 1⟩, ⟨65536, 2⟩, ⟨65537, 3⟩] ∧
        r.cycles = 65536 := by
  obtain ⟨r, h, hl, -, hc, -⟩ := recordAll_consecutive_exact 1 (fun _ => 2) (fun j => j)
    65534 3 (by decide) (by decide)
  refine ⟨by decide, by decide, r, h, ?_, ?_⟩
  · rw [hl]
    decide
  · rw [hc]

/-- Claim C20. `Record` calls on a fresh recorder with sequence numbers `0xffff`, `0x0000`,
`0xffff`, `0x0001`, in this order, leave `cycles = 0x20000` and the stored extended
sequences `0xffff`, `0x10000`, `0x1ffff` and `0x20001`, although the in-order numbers
`0xffff, 0, 1` wrap once: the packet reordered across the boundary makes the same wrap
count twice. -/
theorem reordered_wrap_counted_twice :
    recordAll (newRecorderOld 1) [⟨2, 0xffff, 1⟩, ⟨2, 0x0000, 2⟩, ⟨2, 0xffff, 3⟩, ⟨2, 0x0001, 4⟩]
      = some ⟨[⟨0xffff, 1⟩, ⟨0x10000, 2⟩, ⟨0x1ffff, 3⟩, ⟨0x20001, 4⟩], 0x20000, 1, 1, 2, 0⟩ ∧
    (recordAll (newRecorderOld 1) [⟨2, 0xffff, 1⟩, ⟨2, 0x0000, 2⟩]).map recorderOld.cycles
      = some 0x10000 ∧
    (recordAll (newRecorderOld 1) [⟨2, 0xffff, 1⟩, ⟨2, 0x0000, 2⟩, ⟨2, 0xffff, 3⟩]).map
      recorderOld.receivedPackets = some [⟨0xffff, 1⟩, ⟨0x10000, 2⟩, ⟨0x1ffff, 3⟩] ∧
    wrapsAfter 0 0 [0xffff, 0, 1] = 1 := by
  decide

end twcc

namespace report

/-! ## Lemmas on the sender stream -/

theorem int16_sub16_pos (a b : Nat) (ha : a < 2 ^ 16) (hb : b < 2 ^ 16) :
    int16 (sub16 a b) > 0 ↔ (0 < (a + 65536 - b) % 65536 ∧ (a + 65536 - b) % 65536 < 32768) := by
  unfold int16 sub16
  split_ifs with h <;> omega

theorem processRTP_counters (stream : senderStream) (now : Int) (header : Header)
    (payload : List Nat) :
    (processRTP stream now header payload).packetCount = (stream.packetCount + 1) % 2 ^ 32 ∧
      (processRTP stream now header payload).octetCount
        = (stream.octetCount + payload.length) % 2 ^ 32 ∧
      (processRTP stream now header payload).ssrc = stream.ssrc ∧
      (processRTP stream now header payload).clockRate = stream.clockRate ∧
      (processRTP stream now header payload).useLatestPacket = stream.useLatestPacket := by
  unfold processRTP
  split_ifs <;> simp only [and_true, true_and] <;> omega

theorem processAll_counters (ps : List Packet) :
    ∀ stream : senderStream, stream.packetCount < 2 ^ 32 → stream.octetCount < 2 ^ 32 →
      (processAll stream ps).packetCount = (stream.packetCount + ps.length) % 2 ^ 32 ∧
      (processAll stream ps).octetCount
        = (stream.octetCount + (ps.map (fun p => p.payload.length)).sum) % 2 ^ 32 ∧
      (processAll stream ps).ssrc = stream.ssrc ∧
      (processAll stream ps).clockRate = stream.clockRate := by
  induction ps with
  | nil =>
    intro stream h1 h2
    simp only [processAll, List.length_nil, List.map_nil, List.sum_nil, Nat.add_zero]
    exact ⟨(Nat.mod_eq_of_lt h1).symm, (Nat.mod_eq_of_lt h2).symm, trivial, trivial⟩
  | cons p ps ih =>
    intro stream h1 h2
    obtain ⟨hp, ho, hs, hc, -⟩ := processRTP_counters stream p.now p.header p.payload
    obtain ⟨ihp, iho, ihs, ihc⟩ := ih (processRTP stream p.now p.header p.payload)
      (by rw [hp]; exact Nat.mod_lt _ (by decide)) (by rw [ho]; exact Nat.mod_lt _ (by decide))
    rw [processAll, ihp, iho, ihs, ihc, hp, ho, hs, hc]
    simp only [List.length_cons, List.map_cons, List.sum_cons]
    exact ⟨by omega, by omega, trivial, trivial⟩

/-! ## Claims on the sender stream -/

/-- Claim C13. `processRTP` sets `lastRTPSN`, `lastRTPTimeRTP` and `lastRTPTimeTime` to the
sequence number and timestamp of the packet and to `now` when `useLatestPacket` is set, or
`packetCount` is 0, or `int16(new - last) > 0` in 16-bit wraparound arithmetic (the
difference modulo 65536 lies strictly between 0 and 32768), and leaves the three fields
unchanged otherwise; so a repeated sequence number and one exactly `0x8000` ahead are
ignored when neither of the first two conditions holds. -/
theorem processRTP_latest (stream : senderStream) (now : Int) (header : Header)
    (payload : List Nat) (hsn : header.SequenceNumber < 2 ^ 16)
    (hlast : stream.lastRTPSN < 2 ^ 16) :
    ((stream.useLatestPacket = true ∨ stream.packetCount = 0 ∨
        int16 (sub16 header.SequenceNumber stream.lastRTPSN) > 0) →
      (processRTP stream now header payload).lastRTPSN = header.SequenceNumber ∧
      (processRTP stream now header payload).lastRTPTimeRTP = header.Timestamp ∧
      (processRTP stream now header payload).lastRTPTimeTime = now) ∧
    (¬ (stream.useLatestPacket = true ∨ stream.packetCount = 0 ∨
        int16 (sub16 header.SequenceNumber stream.lastRTPSN) > 0) →
      (processRTP stream now header payload).lastRTPSN = stream.lastRTPSN ∧
      (processRTP stream now header payload).lastRTPTimeRTP = stream.lastRTPTimeRTP ∧
      (processRTP stream now header payload).lastRTPTimeTime = stream.lastRTPTimeTime) ∧
    (int16 (sub16 header.SequenceNumber stream.lastRTPSN) > 0 ↔
      (0 < (header.SequenceNumber + 65536 - stream.lastRTPSN) % 65536 ∧
        (header.SequenceNumber + 65536 - stream.lastRTPSN) % 65536 < 32768)) ∧
    (stream.useLatestPacket = false → stream.packetCount ≠ 0 →
      (header.SequenceNumber = stream.lastRTPSN ∨
        header.SequenceNumber = (stream.lastRTPSN + 0x8000) % 65536) →
      (processRTP stream now header payload).lastRTPSN = stream.lastRTPSN ∧
      (processRTP stream now header payload).lastRTPTimeRTP = stream.lastRTPTimeRTP ∧
      (processRTP stream now header payload).lastRTPTimeTime = stream.lastRTPTimeTime) := by
  have hpos := int16_sub16_pos header.SequenceNumber stream.lastRTPSN hsn hlast
  have hno : ¬ (stream.useLatestPacket = true ∨ stream.packetCount = 0 ∨
        int16 (sub16 header.SequenceNumber stream.lastRTPSN) > 0) →
      (processRTP stream now header payload).lastRTPSN = stream.lastRTPSN ∧
      (processRTP stream now header payload).lastRTPTimeRTP = stream.lastRTPTimeRTP ∧
      (processRTP stream now header payload).lastRTPTimeTime = stream.lastRTPTimeTime := by
    intro h
    unfold processRTP
    rw [if_neg h]
    exact ⟨rfl, rfl, rfl⟩
  refine ⟨?_, hno, hpos, ?_⟩
  · intro h
    unfold processRTP
    rw [if_pos h]
    exact ⟨rfl, rfl, rfl⟩
  · intro hu hp hsame
    apply hno
    rintro (h | h | h)
    · rw [hu] at h
      cases h
    · exact hp h
    · rw [hpos] at h
      rcases hsame with hs | hs
      · rw [hs] at h
        omega
      · rw [hs] at h
        omega

theorem processRTP_latest_witness :
    (7 : Nat) < 2 ^ 16 ∧ (7 : Nat) < 2 ^ 16 ∧
      (processRTP ⟨1, 90000, false, 100, 5, 7, 3, 40⟩ 9 ⟨7, 200⟩ [1, 2]).lastRTPTimeRTP = 100 ∧
      (processRTP ⟨1, 90000, false, 100, 5, 7, 3, 40⟩ 9 ⟨7, 200⟩ [1, 2]).packetCount = 4 := by
  have h := (processRTP_latest ⟨1, 90000, false, 100, 5, 7, 3, 40⟩ 9 ⟨7, 200⟩ [1, 2]
    (by decide) (by decide)).2.2.2 rfl (by decide) (Or.inl rfl)
  exact ⟨by decide, by decide, h.2.1, by decide⟩

/-- Claim C14. Every `processRTP` call, whether or not the packet is taken as latest,
adds 1 to `packetCount` and the payload length to `octetCount`, both modulo `2^32`, and
changes neither `ssrc` nor `clockRate`; so after `n` calls on a new stream
`generateReport` returns the `ssrc` of the stream, `PacketCount = n mod 2^32` and
`OctetCount = (sum of the payload lengths) mod 2^32`, and `generateReport` leaves the
stream as it was. -/
theorem generateReport_counts (toNTP : Int → Nat) (elapsedTicks : Int → Int → Nat → Nat)
    (ssrc clockRate : Nat) (ps : List Packet) (now : Int) (stream : senderStream)
    (p : Packet) :
    ((processRTP stream p.now p.header p.payload).packetCount
        = (stream.packetCount + 1) % 2 ^ 32 ∧
      (processRTP stream p.now p.header p.payload).octetCount
        = (stream.octetCount + p.payload.length) % 2 ^ 32 ∧
      (processRTP stream p.now p.header p.payload).ssrc = stream.ssrc ∧
      (processRTP stream p.now p.header p.payload).clockRate = stream.clockRate) ∧
    ((generateReport toNTP elapsedTicks
        (processAll (newSenderStream ssrc clockRate) ps) now).2.SSRC = ssrc ∧
      (generateReport toNTP elapsedTicks
        (processAll (newSenderStream ssrc clockRate) ps) now).2.PacketCount
        = ps.length % 2 ^ 32 ∧
      (generateReport toNTP elapsedTicks
        (processAll (newSenderStream ssrc clockRate) ps) now).2.OctetCount
        = (ps.map (fun q => q.payload.length)).sum % 2 ^ 32) ∧
    (generateReport toNTP elapsedTicks stream now).1 = stream := by
  obtain ⟨hp, ho, hs, hc, -⟩ := processRTP_counters stream p.now p.header p.payload
  obtain ⟨ap, ao, hsrc, -⟩ := processAll_counters ps (newSenderStream ssrc clockRate)
    (by simp [newSenderStream]) (by simp [newSenderStream])
  refine ⟨⟨hp, ho, hs, hc⟩, ⟨?_, ?_, ?_⟩, rfl⟩
  · simp only [generateReport]
    rw [hsrc]
    rfl
  · simp only [generateReport]
    rw [ap]
    simp [newSenderStream]
  · simp only [generateReport]
    rw [ao]
    simp [newSenderStream]

end report
